import Mathlib

/-!
Verification of the perler-beads pattern engine.

This file gives a shallow embedding, in Lean 4, of the grid post-processors
(color merge, background removal), the region analyzer (stack-based flood
fill and row-major region scan), the work recommender (nearest / edge-first
policies), and the color-catalog translator of the repository, together with
proofs and refutations of the specified properties.

Conventions.
* A pixel grid is a list of rows of `MappedPixel` mirroring `MappedPixel[][]`;
  out-of-range accesses yield a default pixel via `getD`, mirroring the fact
  that the source only reads cells after an explicit bounds check.
* The hook `useEditMode.ts` addresses cells as `(x, y)` pairs while the focus
  page addresses them as `(row, col)` pairs; both are embedded as `Int × Int`
  with the component order of the respective source.
* `Math.hypot` / Euclidean color distances are compared through their squares,
  which preserves every strict and non-strict comparison of nonnegative reals,
  so the selections computed here coincide with the source's selections under
  exact real arithmetic.
* The string-keyed JavaScript `Set`s of `"x,y"` keys are embedded as `Finset`s
  of coordinate pairs, and the insertion-ordered objects used as tally maps
  are embedded as association lists in insertion order.

The modules `utils/floodFillUtils.ts` and `utils/pixelation.ts` are not part
of the available sources (only their call sites are); the definitions below
that stand in for them are explicitly marked `Modelled from the spec:` and
follow the specification's description of those helpers.
-/

/-- One cell of the pattern grid, mirroring `MappedPixel` from
`utils/pixelation` (`color` hex string, `key` palette identifier,
`isExternal` background flag; a missing flag is embedded as `false`). -/
structure MappedPixel where
  color : String
  key : String
  isExternal : Bool
deriving DecidableEq, Repr

/-- The default result of an out-of-range read. -/
def defaultPixel : MappedPixel := { color := "", key := "", isExternal := false }

/-- A pixel grid, mirroring `MappedPixel[][]` (a list of rows). -/
abbrev PixelGrid := List (List MappedPixel)

/-- `pixelGrid.length` of the source: number of rows. -/
def gridRows (g : PixelGrid) : Nat := g.length

/-- `pixelGrid[0].length` of the source: number of columns, read off the
first row (the grids built by the generator are rectangular). -/
def gridCols (g : PixelGrid) : Nat := (g.getD 0 []).length

/-- `pixelGrid[y][x]`, with out-of-range reads giving `defaultPixel`; the
source only performs this access after a bounds check. -/
def cellAt (g : PixelGrid) (y x : Nat) : MappedPixel := (g.getD y []).getD x defaultPixel

/-- An RGB triple, mirroring `RgbColor` from `utils/pixelation`. -/
structure RgbColor where
  r : Nat
  g : Nat
  b : Nat
deriving DecidableEq, Repr

/-- Value of one hexadecimal digit. Modelled from the spec: a Color is
"always representable as a 6-hex-digit string", parsed case-insensitively. -/
def hexDigitVal (c : Char) : Option Nat :=
  if '0' ≤ c ∧ c ≤ '9' then some (c.toNat - '0'.toNat)
  else if 'a' ≤ c ∧ c ≤ 'f' then some (c.toNat - 'a'.toNat + 10)
  else if 'A' ≤ c ∧ c ≤ 'F' then some (c.toNat - 'A'.toNat + 10)
  else none

/-- Modelled from the spec: `hexToRgb` of the missing `utils/pixelation`
module parses a `#RRGGBB` string into an RGB triple and fails (`none`) on
anything else. -/
def hexToRgb (s : String) : Option RgbColor :=
  match s.data with
  | ['#', r1, r2, g1, g2, b1, b2] =>
    match hexDigitVal r1, hexDigitVal r2, hexDigitVal g1, hexDigitVal g2,
        hexDigitVal b1, hexDigitVal b2 with
    | some a, some b, some c, some d, some e, some f =>
      some { r := a * 16 + b, g := c * 16 + d, b := e * 16 + f }
    | _, _, _, _, _, _ => none
  | _ => none

/-- Squared Euclidean distance between two RGB triples. Modelled from the
spec: `colorDistance` of the missing `utils/pixelation` module is the
Euclidean RGB distance; all the source ever does with it is compare it to a
nonnegative threshold, and `d < t ↔ d² < t²` for nonnegative `d`, `t`, so the
comparisons below are stated on squares. -/
def colorDistSq (a b : RgbColor) : Int :=
  ((a.r : Int) - b.r) ^ 2 + ((a.g : Int) - b.g) ^ 2 + ((a.b : Int) - b.b) ^ 2

/-- `colorDistance(a, b) < t`, expressed on squares (see `colorDistSq`). -/
def colorDistLt (a b : RgbColor) (t : Int) : Bool := colorDistSq a b < t * t

/-! ## Color catalog translator (`utils/colorSystemUtils.ts`) -/

/-- The five catalog naming systems of `ColorSystem`. -/
inductive ColorSystem where
  | MARD
  | COCO
  | manman
  | panpan
  | mixiaowo
deriving DecidableEq, Repr

/-- The static `colorSystemMapping.json` table: hex keys in insertion order,
each with its per-catalog codes. A missing code is `none` (JavaScript
`undefined`); the `.json` asset itself is external configuration, so the
table is a parameter of the lookup functions. -/
abbrev CatalogTable := List (String × (ColorSystem → Option String))

/-- `typedColorSystemMapping[hex]`: first (only) entry with the given key. -/
def tableEntry (table : CatalogTable) (hex : String) : Option (ColorSystem → Option String) :=
  (table.find? (fun e => e.1 = hex)).map (fun e => e.2)

/-- Uppercasing used by `hexValue.toUpperCase()`. -/
def hexUpper (s : String) : String := String.mk (s.data.map Char.toUpper)

/-- JavaScript truthiness of `mapping && mapping[colorSystem]`: the code is
used only when the entry exists and the code is a nonempty string. -/
def truthyCode (entry : Option (ColorSystem → Option String)) (sys : ColorSystem) :
    Option String :=
  match entry with
  | none => none
  | some m =>
    match m sys with
    | none => none
    | some code => if code = "" then none else some code

/-- `getColorKeyByHex` from `utils/colorSystemUtils.ts`: uppercase the hex,
look it up, and return the catalog code, or the sentinel `"?"` when the hex
has no (truthy) code in that catalog. -/
def getColorKeyByHex (table : CatalogTable) (hexValue : String) (colorSystem : ColorSystem) :
    String :=
  let normalizedHex := hexUpper hexValue
  match truthyCode (tableEntry table normalizedHex) colorSystem with
  | some code => code
  | none => "?"

/-- `getDisplayColorKey` from `utils/colorSystemUtils.ts`: special keys
(`"ERASE"`, the empty string, `"?"`) are returned unchanged; otherwise the
behaviour is that of `getColorKeyByHex`. -/
def getDisplayColorKey (table : CatalogTable) (hexValue : String) (colorSystem : ColorSystem) :
    String :=
  if hexValue = "ERASE" ∨ hexValue = "" ∨ hexValue = "?" then hexValue
  else
    let normalizedHex := hexUpper hexValue
    match truthyCode (tableEntry table normalizedHex) colorSystem with
    | some code => code
    | none => "?"

/-! ## Color merge (`regeneratePixelArt`, color merge block) -/

/-- One entry of the `colorCounts` tally object: color hex, occurrence count,
parsed RGB. -/
abbrev TallyEntry := String × Nat × RgbColor

/-- The guard `pixel.key && pixel.key !== 'transparent' && !pixel.isExternal`
selecting the cells whose colors are tallied. -/
def countedPixel (px : MappedPixel) : Bool :=
  px.key ≠ "" ∧ px.key ≠ "transparent" ∧ px.isExternal = false

/-- One step of building `colorCounts`: bump the count of an already-present
color, or append a new entry with count 1 when the color's hex parses
(`if (rgb) colorCounts[...] = { count: 0, rgb }` followed by `count++`);
colors whose hex does not parse are never entered. -/
def tallyStep (acc : List TallyEntry) (px : MappedPixel) : List TallyEntry :=
  if countedPixel px then
    if (acc.find? (fun e => e.1 = px.color)).isSome then
      acc.map (fun e => if e.1 = px.color then (e.1, e.2.1 + 1, e.2.2) else e)
    else
      match hexToRgb px.color with
      | some rgb => acc ++ [(px.color, 1, rgb)]
      | none => acc
  else acc

/-- `colorCounts` as an association list in insertion order (row-major over
the grid, mirroring the nested `forEach`). -/
def mergeTally (g : PixelGrid) : List TallyEntry :=
  g.foldl (fun acc row => row.foldl tallyStep acc) []

/-- `sortedColors`: the tally sorted by descending count. `Array.sort` with
comparator `(a, b) => b.count - a.count` is a stable sort by that comparator,
embedded as a stable insertion sort with `a ≼ b ↔ b.count ≤ a.count`. -/
def sortedColors (tally : List TallyEntry) : List TallyEntry :=
  tally.insertionSort (fun a b => b.2.1 ≤ a.2.1)

/-- `colorMap[color]`: association-list lookup of a color's representative. -/
def colorMapLookup (cmap : List (String × String)) (c : String) : Option String :=
  (cmap.find? (fun e => e.1 = c)).map (fun e => e.2)

/-- The inner `for (let j = index + 1; ...)` loop: record `B ↦ A` for every
later color `B` that is still unmerged and within the threshold. -/
def mergeInner (t : Int) (a : TallyEntry) (laters : List TallyEntry)
    (cmap : List (String × String)) : List (String × String) :=
  laters.foldl
    (fun m b =>
      if (colorMapLookup m b.1).isSome then m
      else if colorDistLt a.2.2 b.2.2 t then m ++ [(b.1, a.1)] else m)
    cmap

/-- `colorMap` built exactly as the source builds it: scan `sortedColors`
with its index; skip already-merged colors; otherwise map the color to
itself and run the inner loop over the strictly later part of the array. -/
def colorMapSource (t : Int) (sorted : List TallyEntry) : List (String × String) :=
  (List.range sorted.length).foldl
    (fun cmap index =>
      let colorA := sorted.getD index ("", 0, ⟨0, 0, 0⟩)
      if (colorMapLookup cmap colorA.1).isSome then cmap
      else mergeInner t colorA (sorted.drop (index + 1)) (cmap ++ [(colorA.1, colorA.1)]))
    []

/-- The same greedy map, written the way the specification words it: walk the
sorted list structurally; each not-yet-merged color `A` becomes its own
representative and absorbs every later still-unmerged color within the
threshold; merges are never re-evaluated afterwards. -/
def colorMapSpec (t : Int) : List TallyEntry → List (String × String) → List (String × String)
  | [], cmap => cmap
  | a :: rest, cmap =>
    if (colorMapLookup cmap a.1).isSome then colorMapSpec t rest cmap
    else
      colorMapSpec t rest
        ((cmap ++ [(a.1, a.1)]) ++
          (rest.filter
              (fun b => (colorMapLookup cmap b.1).isNone ∧ colorDistLt a.2.2 b.2.2 t)).map
            (fun b => (b.1, a.1)))

/-- Applying `colorMap`: every cell whose (truthy) color has an entry is
rewritten to its representative's color and identifier
(`pixel.color = colorMap[pixel.color]; pixel.key = colorMap[pixel.color]`). -/
def applyColorMap (cmap : List (String × String)) (g : PixelGrid) : PixelGrid :=
  g.map (fun row =>
    row.map (fun px =>
      if px.color = "" then px
      else
        match colorMapLookup cmap px.color with
        | some rep => { px with color := rep, key := rep }
        | none => px))

/-- `if (mergeThreshold < 0) ... if (mergeThreshold > 450) ...`. -/
def clampThreshold (t : Int) : Int := if t < 0 then 0 else if t > 450 then 450 else t

/-- The color merge block of `regeneratePixelArt`: clamp the threshold, and
when it is positive tally, sort, build the greedy map and rewrite; a
non-positive clamped threshold leaves the grid untouched. -/
def colorMergeStep (threshold : Int) (g : PixelGrid) : PixelGrid :=
  let mergeThreshold := clampThreshold threshold
  if 0 < mergeThreshold then
    applyColorMap (colorMapSource mergeThreshold (sortedColors (mergeTally g))) g
  else g

/-- All cells of a grid, row-major. -/
def allCells (g : PixelGrid) : List MappedPixel := g.foldr (fun row acc => row ++ acc) []

/-- The set of distinct cell colors of a grid. -/
def gridColors (g : PixelGrid) : Finset String :=
  ((allCells g).map MappedPixel.color).toFinset

/-- The distinct elements of a list in first-occurrence order (JavaScript
object keys are in insertion order). -/
def firstOccurrences {α : Type _} [DecidableEq α] (l : List α) : List α :=
  l.foldl (fun acc c => if c ∈ acc then acc else acc ++ [c]) []

/-- The tally as the specification words it: the distinct counted colors in
first-occurrence order, each with the number of counted cells carrying it
and its parsed RGB (colors without a parseable hex never enter the tally). -/
def specTally (g : PixelGrid) : List TallyEntry :=
  (firstOccurrences (((allCells g).filter countedPixel).map MappedPixel.color)).filterMap
    (fun c =>
      (hexToRgb c).map
        (fun rgb => (c, ((allCells g).filter countedPixel).countP (fun px => px.color = c), rgb)))

/-- The rewrite step as the specification words it: every cell whose color
was merged is rewritten to its representative's color and identifier (no
truthiness guard; the guard in `applyColorMap` is vacuous because the empty
string never has a representative). -/
def applyColorMapSpec (cmap : List (String × String)) (g : PixelGrid) : PixelGrid :=
  g.map (fun row =>
    row.map (fun px =>
      match colorMapLookup cmap px.color with
      | some rep => { px with color := rep, key := rep }
      | none => px))

/-- The color merge pipeline exactly as the specification describes it:
tally (spec wording), sort by descending count, greedy structural scan,
rewrite every mapped cell. -/
def specColorMerge (t : Int) (g : PixelGrid) : PixelGrid :=
  applyColorMapSpec (colorMapSpec t (sortedColors (specTally g)) []) g

/-! ## Background removal (`regeneratePixelArt`, background removal block) -/

/-- One step of building `edgeColorCounts`:
`if (color && color !== 'transparent') edgeColorCounts[color] = (edgeColorCounts[color] || 0) + 1`,
on an insertion-ordered association list. -/
def edgeTallyStep (acc : List (String × Nat)) (c : String) : List (String × Nat) :=
  if c ≠ "" ∧ c ≠ "transparent" then
    if (acc.find? (fun e => e.1 = c)).isSome then
      acc.map (fun e => if e.1 = c then (e.1, e.2 + 1) else e)
    else acc ++ [(c, 1)]
  else acc

/-- The `(y, x)` positions read by the four edge-tally loops, in source
order: top row (all columns), bottom row (all columns), left column for
`1 ≤ y ≤ rows − 2`, right column for `1 ≤ y ≤ rows − 2`. -/
def edgeTallyPositions (rows cols : Nat) : List (Nat × Nat) :=
  (List.range cols).map (fun x => (0, x)) ++
    (List.range cols).map (fun x => (rows - 1, x)) ++
    (List.range' 1 (rows - 2)).map (fun y => (y, 0)) ++
    (List.range' 1 (rows - 2)).map (fun y => (y, cols - 1))

/-- `edgeColorCounts` as the source computes it. -/
def edgeColorCounts (g : PixelGrid) : List (String × Nat) :=
  (edgeTallyPositions (gridRows g) (gridCols g)).foldl
    (fun acc p => edgeTallyStep acc (cellAt g p.1 p.2).color) []

/-- The selection loop `for (const [color, count] of Object.entries(...))`
with `if (count > maxCount)`: the first entry with the maximal count, or the
empty string on an empty tally. -/
def mostCommonEdgeColor (tally : List (String × Nat)) : String :=
  (tally.foldl (fun acc e => if e.2 > acc.2 then e else acc) ("", 0)).1

/-- The edge tally as the claim words it: the same scan order, but every
border cell is counted exactly once (duplicated positions are skipped), so
in particular corners are counted exactly once. On grids with at least two
rows and two columns the position list has no duplicates and this coincides
with `edgeColorCounts`. -/
def claimEdgeTally (g : PixelGrid) : List (String × Nat) :=
  ((edgeTallyPositions (gridRows g) (gridCols g)).dedup).foldl
    (fun acc p => edgeTallyStep acc (cellAt g p.1 p.2).color) []

/-- `pixelData[y][x].isExternal = true` as a functional update; out-of-range
indices leave the grid unchanged (the source only marks in-bounds cells). -/
def markExternal (g : PixelGrid) (y x : Nat) : PixelGrid :=
  g.set y ((g.getD y []).set x { cellAt g y x with isExternal := true })

/-- The in-bounds coordinate box, used as the termination measure domain of
the flood-fill loops. -/
def boundsBox (rows cols : Nat) : Finset (Int × Int) :=
  Finset.Icc (0 : Int) ((rows : Int) - 1) ×ˢ Finset.Icc (0 : Int) ((cols : Int) - 1)

/-- The queue-based `floodFill` of the background removal block: positions
are `(y, x)`; a popped position is skipped when out of bounds or already
visited, then marked visited; matching cells are marked external and their
four neighbours are appended to the queue (`shift`/`push`, BFS order). -/
def bgFloodLoop (rows cols : Nat) (targetColor : String) :
    PixelGrid → List (Int × Int) → Finset (Int × Int) → PixelGrid
  | g, [], _ => g
  | g, p :: queue, visited =>
    if p.1 < 0 ∨ (rows : Int) ≤ p.1 ∨ p.2 < 0 ∨ (cols : Int) ≤ p.2 ∨ p ∈ visited then
      bgFloodLoop rows cols targetColor g queue visited
    else
      if (cellAt g p.1.toNat p.2.toNat).color ≠ targetColor then
        bgFloodLoop rows cols targetColor g queue (insert p visited)
      else
        bgFloodLoop rows cols targetColor (markExternal g p.1.toNat p.2.toNat)
          (queue ++ [(p.1 - 1, p.2), (p.1 + 1, p.2), (p.1, p.2 - 1), (p.1, p.2 + 1)])
          (insert p visited)
  termination_by _g queue visited => ((boundsBox rows cols \ visited).card, queue.length)
  decreasing_by
  · apply Prod.Lex.right
    simp
  · rename_i hbound _hcolor
    push_neg at hbound
    have hpbox : p ∈ boundsBox rows cols := by
      simp only [boundsBox, Finset.mem_product, Finset.mem_Icc]
      omega
    apply Prod.Lex.left
    apply Finset.card_lt_card
    constructor
    · intro q hq
      simp only [Finset.mem_sdiff, Finset.mem_insert] at hq ⊢
      exact ⟨hq.1, fun hm => hq.2 (Or.inr hm)⟩
    · intro hsub
      have hmem : p ∈ boundsBox rows cols \ visited :=
        Finset.mem_sdiff.mpr ⟨hpbox, hbound.2.2.2.2⟩
      have := hsub hmem
      simp at this
  · rename_i hbound _hcolor
    push_neg at hbound
    have hpbox : p ∈ boundsBox rows cols := by
      simp only [boundsBox, Finset.mem_product, Finset.mem_Icc]
      omega
    apply Prod.Lex.left
    apply Finset.card_lt_card
    constructor
    · intro q hq
      simp only [Finset.mem_sdiff, Finset.mem_insert] at hq ⊢
      exact ⟨hq.1, fun hm => hq.2 (Or.inr hm)⟩
    · intro hsub
      have hmem : p ∈ boundsBox rows cols \ visited :=
        Finset.mem_sdiff.mpr ⟨hpbox, hbound.2.2.2.2⟩
      have := hsub hmem
      simp at this

/-- `floodFill(startY, startX, targetColor)` seeded with a single position. -/
def bgFloodFill (rows cols : Nat) (g : PixelGrid) (startY startX : Int)
    (targetColor : String) : PixelGrid :=
  bgFloodLoop rows cols targetColor g [(startY, startX)] ∅

/-- One seed loop of the background removal block: walk the given border
positions in order and flood fill from every cell that currently has the
background color and is not yet external. -/
def bgSeedLoop (rows cols : Nat) (bg : String) (seeds : List (Int × Int))
    (g : PixelGrid) : PixelGrid :=
  seeds.foldl
    (fun gg p =>
      if (cellAt gg p.1.toNat p.2.toNat).color = bg ∧
          (cellAt gg p.1.toNat p.2.toNat).isExternal = false then
        bgFloodFill rows cols gg p.1 p.2 bg
      else gg)
    g

/-- The seed positions of the four seed loops, in source order: top edge
(all columns), bottom edge (all columns), left edge (all rows), right edge
(all rows). -/
def bgSeedPositions (rows cols : Nat) : List (Int × Int) :=
  (List.range cols).map (fun x => ((0 : Int), (x : Int))) ++
    (List.range cols).map (fun x => (((rows : Int) - 1), (x : Int))) ++
    (List.range rows).map (fun y => ((y : Int), (0 : Int))) ++
    (List.range rows).map (fun y => ((y : Int), ((cols : Int) - 1)))

/-- The background removal block of `regeneratePixelArt`: tally the edge
colors, select the most common one, and when one exists flood fill from
every matching border cell, marking the filled cells external. -/
def removeBackgroundStep (g : PixelGrid) : PixelGrid :=
  let rows := gridRows g
  let cols := gridCols g
  let bg := mostCommonEdgeColor (edgeColorCounts g)
  if bg = "" then g
  else bgSeedLoop rows cols bg (bgSeedPositions rows cols) g

/-! ## Region flood fill (stack-based DFS)

`getConnectedRegion` of `useEditMode.ts` and the flood-fill helpers of the
missing `utils/floodFillUtils.ts` share one loop shape: pop a position from
the stack, skip it if already visited, mark it visited, drop it unless it is
a valid cell, otherwise record it and push its four neighbours. The loop is
defined once, generically in the cell-validity test `ok` (which also carries
the bounds check, exactly as in the sources). -/

/-- The four pushed neighbours, in the order they are popped by the
array-as-stack of the source (`push x+1, x-1, y+1, y-1` then `pop`). -/
def pushedNeighbors (p : Int × Int) : List (Int × Int) :=
  [(p.1, p.2 - 1), (p.1, p.2 + 1), (p.1 - 1, p.2), (p.1 + 1, p.2)]

/-- The generic DFS flood-fill loop. `dom` is any finite set containing
every position satisfying `ok` (witnessed by `hok`); it only feeds the
termination measure. -/
def floodLoop (dom : Finset (Int × Int)) (ok : Int × Int → Bool)
    (hok : ∀ p, ok p = true → p ∈ dom) :
    List (Int × Int) → Finset (Int × Int) → List (Int × Int) → List (Int × Int)
  | [], _, region => region
  | p :: stack, visited, region =>
    if p ∈ visited then floodLoop dom ok hok stack visited region
    else
      if ok p then
        floodLoop dom ok hok (pushedNeighbors p ++ stack) (insert p visited) (region ++ [p])
      else floodLoop dom ok hok stack (insert p visited) region
  termination_by stack visited _ => ((dom \ visited).card, stack.length)
  decreasing_by
  · apply Prod.Lex.right
    simp
  · rename_i hvis hok2
    apply Prod.Lex.left
    apply Finset.card_lt_card
    constructor
    · intro q hq
      simp only [Finset.mem_sdiff, Finset.mem_insert] at hq ⊢
      exact ⟨hq.1, fun hm => hq.2 (Or.inr hm)⟩
    · intro hsub
      have hmem : p ∈ dom \ visited := Finset.mem_sdiff.mpr ⟨hok p hok2, hvis⟩
      have := hsub hmem
      simp at this
  · rename_i hvis hko
    by_cases hpdom : p ∈ dom
    · apply Prod.Lex.left
      apply Finset.card_lt_card
      constructor
      · intro q hq
        simp only [Finset.mem_sdiff, Finset.mem_insert] at hq ⊢
        exact ⟨hq.1, fun hm => hq.2 (Or.inr hm)⟩
      · intro hsub
        have hmem : p ∈ dom \ visited := Finset.mem_sdiff.mpr ⟨hpdom, hvis⟩
        have := hsub hmem
        simp at this
    · have hsame : dom \ insert p visited = dom \ visited := by
        ext q
        simp only [Finset.mem_sdiff, Finset.mem_insert]
        constructor
        · rintro ⟨h1, h2⟩
          exact ⟨h1, fun hm => h2 (Or.inr hm)⟩
        · rintro ⟨h1, h2⟩
          refine ⟨h1, ?_⟩
          rintro (rfl | hm)
          · exact hpdom h1
          · exact h2 hm
      rw [hsame]
      apply Prod.Lex.right
      simp

/-- The generic row-major region scan: walk the scan positions in order; at
every position that is unvisited and satisfies the seed test, flood fill,
mark the region's cells visited, and emit the region when nonempty. -/
def scanRegionsLoop (dom : Finset (Int × Int)) (ok : Int × Int → Bool)
    (hok : ∀ p, ok p = true → p ∈ dom) (seedOk : Int × Int → Bool) :
    List (Int × Int) → Finset (Int × Int) → List (List (Int × Int)) →
      List (List (Int × Int))
  | [], _, regions => regions
  | p :: todo, visited, regions =>
    if p ∉ visited ∧ seedOk p then
      let cells := floodLoop dom ok hok [p] ∅ []
      let visited' := visited ∪ cells.toFinset
      if 0 < cells.length then scanRegionsLoop dom ok hok seedOk todo visited' (regions ++ [cells])
      else scanRegionsLoop dom ok hok seedOk todo visited' regions
    else scanRegionsLoop dom ok hok seedOk todo visited regions

/-! ## `useEditMode.ts`: regions of the edit-mode hook

Cells are addressed as `(x, y)`: `p.1` is the column, `p.2` the row. -/

/-- Validity test of `getConnectedRegion` in `useEditMode.ts`: the negation
of `x < 0 || x >= pixelGrid[0].length || y < 0 || y >= pixelGrid.length ||
pixelGrid[y][x].key !== targetKey || pixelGrid[y][x].isExternal`. -/
def editCellOk (g : PixelGrid) (targetKey : String) (p : Int × Int) : Bool :=
  0 ≤ p.1 ∧ p.1 < (gridCols g : Int) ∧ 0 ≤ p.2 ∧ p.2 < (gridRows g : Int) ∧
    (cellAt g p.2.toNat p.1.toNat).key = targetKey ∧
    (cellAt g p.2.toNat p.1.toNat).isExternal = false

def editCellOk_mem_box (g : PixelGrid) (targetKey : String) (p : Int × Int)
    (h : editCellOk g targetKey p = true) :
    p ∈ boundsBox (gridCols g) (gridRows g) := by
  simp only [editCellOk, decide_eq_true_eq] at h
  simp only [boundsBox, Finset.mem_product, Finset.mem_Icc]
  omega

/-- `getConnectedRegion(startX, startY, targetKey)` from `useEditMode.ts`:
stack-based flood fill collecting, in visit order, the connected cells with
the target key that are not external. -/
def getConnectedRegion (g : PixelGrid) (startX startY : Int) (targetKey : String) :
    List (Int × Int) :=
  floodLoop (boundsBox (gridCols g) (gridRows g)) (editCellOk g targetKey)
    (editCellOk_mem_box g targetKey) [(startX, startY)] ∅ []

/-- The `(x, y)` scan positions of `findUnmarkedRegions` (outer loop over
`y`, inner loop over `x`). -/
def editScanPositions (g : PixelGrid) : List (Int × Int) :=
  (List.range (gridRows g)).flatMap
    (fun y => (List.range (gridCols g)).map (fun (x : Nat) => ((x : Int), (y : Int))))

/-- `findUnmarkedRegions()` from `useEditMode.ts`: row-major scan; a cell
seeds a new region when it is unvisited, carries the current color key, is
not external and is not in `markedCells`. The `bounds` rectangle of the
source's `Region` record is derived data not used by any verified property
and is omitted; a region is its cell list. -/
def findUnmarkedRegions (g : PixelGrid) (currentColorKey : String)
    (markedCells : Finset (Int × Int)) : List (List (Int × Int)) :=
  scanRegionsLoop (boundsBox (gridCols g) (gridRows g)) (editCellOk g currentColorKey)
    (editCellOk_mem_box g currentColorKey)
    (fun p =>
      (cellAt g p.2.toNat p.1.toNat).key = currentColorKey ∧
        (cellAt g p.2.toNat p.1.toNat).isExternal = false ∧ p ∉ markedCells)
    (editScanPositions g) ∅ []

/-- The edge test of the `edge-first` branch of `recommendNextRegion`:
`x === 0 || y === 0 || x === pixelGrid[0].length - 1 || y === pixelGrid.length - 1`. -/
def editIsEdgeCell (g : PixelGrid) (p : Int × Int) : Bool :=
  p.1 = 0 ∨ p.2 = 0 ∨ p.1 = (gridCols g : Int) - 1 ∨ p.2 = (gridRows g : Int) - 1

/-- Number of boundary cells of a region (`region.cells.filter(...).length`). -/
def editEdgeCount (g : PixelGrid) (region : List (Int × Int)) : Nat :=
  region.countP (editIsEdgeCell g)

/-- Squared distance of a cell to a reference point; `Math.hypot` compared
through squares (see the header). -/
def distSq (p q : Int × Int) : Int := (p.1 - q.1) ^ 2 + (p.2 - q.2) ^ 2

/-- `Math.min(...region.cells.map(cell => Math.hypot(...)))` on squares;
regions produced by the scans are nonempty, so the default never matters. -/
def minDistSq (region : List (Int × Int)) (refPoint : Int × Int) : Int :=
  ((region.map (fun c => distSq c refPoint)).min?).getD 0

/-- The recommendation modes of `RecommendMode` / `guidanceMode`. -/
inductive RecommendMode where
  | nearest
  | largest
  | edgeFirst
deriving DecidableEq, Repr

/-- `recommendNextRegion()` from `useEditMode.ts`, as a function of its
reactive inputs (grid, current color key, marked cells, last marked
position, mode), returning the selected region (the source then stores its
bounds). Each branch is the source's `Array.reduce` over the region list. -/
def recommendNextRegion (g : PixelGrid) (currentColorKey : String)
    (markedCells : Finset (Int × Int)) (lastMarkedPosition : Option (Int × Int))
    (recommendMode : RecommendMode) : Option (List (Int × Int)) :=
  match findUnmarkedRegions g currentColorKey markedCells with
  | [] => none
  | r0 :: rest =>
    match recommendMode with
    | .largest =>
      some (rest.foldl (fun largest region =>
        if region.length > largest.length then region else largest) r0)
    | .nearest =>
      match lastMarkedPosition with
      | some ref =>
        some (rest.foldl (fun nearest region =>
          if minDistSq region ref < minDistSq nearest ref then region else nearest) r0)
      | none => some r0
    | .edgeFirst =>
      some (rest.foldl (fun edgiest region =>
        if editEdgeCount g region > editEdgeCount g edgiest then region else edgiest) r0)

/-! ## Focus page (`app/editor`): regions and recommendations

Cells are addressed as `(row, col)`: `p.1` is the row, `p.2` the column.
The flood-fill helpers live in the missing `utils/floodFillUtils.ts`; they
are modelled from the spec (§4.6) with the same loop shape as the available
`useEditMode.ts` implementation. -/

/-- Cell validity for the focus page: in bounds, carrying the queried color
and not external. Modelled from the spec: regions group "same-colored,
non-external" cells; the callers pass the active color hex. -/
def focusCellOk (g : PixelGrid) (color : String) (p : Int × Int) : Bool :=
  0 ≤ p.1 ∧ p.1 < (gridRows g : Int) ∧ 0 ≤ p.2 ∧ p.2 < (gridCols g : Int) ∧
    (cellAt g p.1.toNat p.2.toNat).color = color ∧
    (cellAt g p.1.toNat p.2.toNat).isExternal = false

def focusCellOk_mem_box (g : PixelGrid) (color : String) (p : Int × Int)
    (h : focusCellOk g color p = true) :
    p ∈ boundsBox (gridRows g) (gridCols g) := by
  simp only [focusCellOk, decide_eq_true_eq] at h
  simp only [boundsBox, Finset.mem_product, Finset.mem_Icc]
  omega

/-- Modelled from the spec: `getConnectedRegion(pixelData, row, col, color)`
of the missing `utils/floodFillUtils.ts` — "flood fill seeded at one cell"
(§4.6), iterative and stack-based (§5). -/
def getConnectedRegionRC (g : PixelGrid) (row col : Int) (color : String) :
    List (Int × Int) :=
  floodLoop (boundsBox (gridRows g) (gridCols g)) (focusCellOk g color)
    (focusCellOk_mem_box g color) [(row, col)] ∅ []

/-- The row-major `(row, col)` scan positions of the focus page. -/
def focusScanPositions (g : PixelGrid) : List (Int × Int) :=
  (List.range (gridRows g)).flatMap
    (fun r => (List.range (gridCols g)).map (fun (c : Nat) => ((r : Int), (c : Int))))

/-- Modelled from the spec: `getAllConnectedRegions(pixelData, color)` of the
missing `utils/floodFillUtils.ts` — scan the grid row-major and flood fill
from "every unvisited, non-external cell whose identifier matches" (§4.6),
yielding the regions in discovery order. -/
def getAllConnectedRegions (g : PixelGrid) (color : String) : List (List (Int × Int)) :=
  scanRegionsLoop (boundsBox (gridRows g) (gridCols g)) (focusCellOk g color)
    (focusCellOk_mem_box g color) (focusCellOk g color) (focusScanPositions g) ∅ []

/-- Modelled from the spec: `isRegionCompleted(region, completedCells)` —
"true iff every cell coordinate in the region is present in completionSet"
(§4.6). -/
def isRegionCompleted (region : List (Int × Int)) (completedCells : Finset (Int × Int)) :
    Bool :=
  region.all (fun c => c ∈ completedCells)

/-- Modelled from the spec: `sortRegionsByDistance(regions, referencePoint)`
of the missing `utils/floodFillUtils.ts` — sort the regions by the minimum
Euclidean distance of their cells to the reference point (§4.7), stably, so
ties keep discovery order; distances are compared through squares. -/
def sortRegionsByDistance (regions : List (List (Int × Int))) (refPoint : Int × Int) :
    List (List (Int × Int)) :=
  regions.insertionSort (fun r1 r2 => minDistSq r1 refPoint ≤ minDistSq r2 refPoint)

/-- Modelled from the spec: `sortRegionsBySize(regions)` — sort by
descending cell count, stably (§4.7). -/
def sortRegionsBySize (regions : List (List (Int × Int))) : List (List (Int × Int)) :=
  regions.insertionSort (fun r1 r2 => r2.length ≤ r1.length)

/-- The boundary test of the `edge-first` branch of
`calculateRecommendedRegion`: `cell.row === 0 || cell.row === M - 1 ||
cell.col === 0 || cell.col === N - 1` with `M = rows`, `N = cols`. -/
def focusIsEdgeCell (g : PixelGrid) (p : Int × Int) : Bool :=
  p.1 = 0 ∨ p.1 = (gridRows g : Int) - 1 ∨ p.2 = 0 ∨ p.2 = (gridCols g : Int) - 1

/-- A region touches the grid's outer boundary
(`region.some(cell => ...)`). -/
def focusTouchesEdge (g : PixelGrid) (region : List (Int × Int)) : Bool :=
  region.any (focusIsEdgeCell g)

/-- The incomplete regions of the active color, in discovery order
(`allRegions.filter(region => !isRegionCompleted(region, completedCells))`). -/
def incompleteRegions (g : PixelGrid) (currentColor : String)
    (completedCells : Finset (Int × Int)) : List (List (Int × Int)) :=
  (getAllConnectedRegions g currentColor).filter
    (fun region => ¬ isRegionCompleted region completedCells)

/-- `calculateRecommendedRegion()` from the focus page, as a function of its
reactive inputs, returning the selected region (`region`; the derived
`cell` / region center is positioning data not used by any verified
property and is omitted). An empty `currentColor` or an empty incomplete
list yields no recommendation. -/
def calculateRecommendedRegion (g : PixelGrid) (currentColor : String)
    (completedCells : Finset (Int × Int)) (selectedCell : Option (Int × Int))
    (guidanceMode : RecommendMode) : Option (List (Int × Int)) :=
  if currentColor = "" then none
  else
    match incompleteRegions g currentColor completedCells with
    | [] => none
    | r0 :: rest =>
      match guidanceMode with
      | .nearest =>
        let referencePoint := selectedCell.getD
          (((gridRows g / 2 : Nat) : Int), ((gridCols g / 2 : Nat) : Int))
        some ((sortRegionsByDistance (r0 :: rest) referencePoint).headD [])
      | .largest => some ((sortRegionsBySize (r0 :: rest)).headD [])
      | .edgeFirst =>
        match (r0 :: rest).filter (focusTouchesEdge g) with
        | [] => some r0
        | e0 :: _ => some e0

/-- The focus-mode branch of `handleCellClick(row, col)`: when the clicked
cell has the active color, compute its connected region; an empty region is
a no-op; a fully completed region is removed from `completedCells`, any
other region is added wholesale. Returns the new completed set. -/
def handleCellClickFocus (g : PixelGrid) (currentColor : String)
    (completedCells : Finset (Int × Int)) (row col : Int) : Finset (Int × Int) :=
  if (cellAt g row.toNat col.toNat).color = currentColor then
    match getConnectedRegionRC g row col currentColor with
    | [] => completedCells
    | c :: cs =>
      if isRegionCompleted (c :: cs) completedCells then
        completedCells \ (c :: cs).toFinset
      else completedCells ∪ (c :: cs).toFinset
  else completedCells

/-- A region of the edit-mode hook touches the grid's outer boundary. -/
def editTouchesEdge (g : PixelGrid) (region : List (Int × Int)) : Bool :=
  region.any (editIsEdgeCell g)

/-! ## Concrete grids used by witnesses and counterexamples -/

/-- A non-external pixel with equal color and key. -/
def mkPx (c : String) : MappedPixel := { color := c, key := c, isExternal := false }

/-- 3×3 grid: one `"A"` component at the top-left corner (one boundary
cell), a second `"A"` component of two cells on the bottom row (two
boundary cells). -/
def gridEdgeCx : PixelGrid :=
  [[mkPx "A", mkPx "B", mkPx "B"],
   [mkPx "B", mkPx "B", mkPx "B"],
   [mkPx "A", mkPx "A", mkPx "B"]]

/-- 5×5 grid of the edge-first scenario: two equal-size `"A"` regions, one
touching row 0, one fully interior. -/
def gridEdgeScenario : PixelGrid :=
  [[mkPx "B", mkPx "A", mkPx "A", mkPx "B", mkPx "B"],
   [mkPx "B", mkPx "B", mkPx "B", mkPx "B", mkPx "B"],
   [mkPx "B", mkPx "B", mkPx "A", mkPx "A", mkPx "B"],
   [mkPx "B", mkPx "B", mkPx "B", mkPx "B", mkPx "B"],
   [mkPx "B", mkPx "B", mkPx "B", mkPx "B", mkPx "B"]]

/-- 2×5 grid refuting merge monotonicity. Counts: `#647000` (100,112,0) ×4,
`#646400` (100,100,0) ×3, `#5B6400` (91,100,0) ×2, `#6D6400` (109,100,0) ×1.
Distances: `d(#647000,#646400) = 12`, `d(#646400,#5B6400) = d(#646400,#6D6400) = 9`,
`d(#647000,#5B6400) = d(#647000,#6D6400) = 15`, `d(#5B6400,#6D6400) = 18`. -/
def gridMergeCx : PixelGrid :=
  [[mkPx "#647000", mkPx "#647000", mkPx "#647000", mkPx "#647000", mkPx "#646400"],
   [mkPx "#646400", mkPx "#646400", mkPx "#5B6400", mkPx "#5B6400", mkPx "#6D6400"]]

/-- 4×1 grid refuting the corners-once edge tally: the two corner cells are
`"A"`, the two interior border cells are `"B"`. -/
def gridBgCx : PixelGrid :=
  [[mkPx "A"], [mkPx "B"], [mkPx "B"], [mkPx "A"]]

/-- 3×3 grid for the nearest policy with no reference cell: one `"A"` cell
at the scan-first corner, one at the grid center. -/
def gridNearCx : PixelGrid :=
  [[mkPx "A", mkPx "B", mkPx "B"],
   [mkPx "B", mkPx "A", mkPx "B"],
   [mkPx "B", mkPx "B", mkPx "B"]]

/-- 2×2 grid for background-removal witnesses: a `"B"` background column
next to an `"A"` column. -/
def gridBgWitness : PixelGrid :=
  [[mkPx "B", mkPx "A"], [mkPx "B", mkPx "A"]]

/-- A one-entry catalog table used by witnesses: `#FFFFFF` has a MARD code
and no code in the other catalogs. -/
def tableWitness : CatalogTable :=
  [("#FFFFFF", fun sys => if sys = ColorSystem.MARD then some "H1" else none)]

/-- `colorCounts` built from an explicit cell list (the grid tally is this
applied to the row-major cell list). -/
def tallyOf (cs : List MappedPixel) : List TallyEntry := cs.foldl tallyStep []

/-- The specification-worded tally of an explicit cell list. -/
def specTallyOf (cs : List MappedPixel) : List TallyEntry :=
  (firstOccurrences ((cs.filter countedPixel).map MappedPixel.color)).filterMap
    (fun c =>
      (hexToRgb c).map
        (fun rgb => (c, (cs.filter countedPixel).countP (fun px => px.color = c), rgb)))

/-- 4-adjacency: `q` is one of the four pushed neighbours of `p`. -/
def adjacent (p q : Int × Int) : Prop := q ∈ pushedNeighbors p

instance (p q : Int × Int) : Decidable (adjacent p q) := by
  unfold adjacent
  infer_instance

/-- One step between valid cells: both ends satisfy the cell test and the
cells are 4-adjacent. -/
def cellStep (ok : Int × Int → Bool) (p q : Int × Int) : Prop :=
  ok p = true ∧ ok q = true ∧ adjacent p q

/-- Connectivity through valid cells (the reflexive-transitive closure of
`cellStep`): the mathematical meaning of one flood fill. -/
def cellReach (ok : Int × Int → Bool) : Int × Int → Int × Int → Prop :=
  Relation.ReflTransGen (cellStep ok)

/-- A fuel-indexed mirror of `floodLoop`, structurally recursive so that
concrete instances compute inside the kernel. With enough fuel it coincides
with `floodLoop` (`floodLoopFuel_eq`). -/
def floodLoopFuel (ok : Int × Int → Bool) :
    Nat → List (Int × Int) → Finset (Int × Int) → List (Int × Int) → List (Int × Int)
  | _, [], _, region => region
  | 0, _ :: _, _, region => region
  | n + 1, p :: stack, visited, region =>
    if p ∈ visited then floodLoopFuel ok n stack visited region
    else
      if ok p then
        floodLoopFuel ok n (pushedNeighbors p ++ stack) (insert p visited) (region ++ [p])
      else floodLoopFuel ok n stack (insert p visited) region

/-- A fuel-indexed mirror of `scanRegionsLoop` built on `floodLoopFuel`. -/
def scanRegionsLoopFuel (n : Nat) (ok seedOk : Int × Int → Bool) :
    List (Int × Int) → Finset (Int × Int) → List (List (Int × Int)) →
      List (List (Int × Int))
  | [], _, regions => regions
  | p :: todo, visited, regions =>
    if p ∉ visited ∧ seedOk p = true then
      let cells := floodLoopFuel ok n [p] ∅ []
      let visited' := visited ∪ cells.toFinset
      if 0 < cells.length then
        scanRegionsLoopFuel n ok seedOk todo visited' (regions ++ [cells])
      else scanRegionsLoopFuel n ok seedOk todo visited' regions
    else scanRegionsLoopFuel n ok seedOk todo visited regions

/-- The running pair of the background-color selection fold
(`let mostCommonEdgeColor = ''; let maxCount = 0; ...`). -/
def edgeSelection (tally : List (String × Nat)) : String × Nat :=
  tally.foldl (fun acc e => if e.2 > acc.2 then e else acc) ("", 0)

/-! # Theorems -/

/-- C7: Color Merge with threshold 0 performs no merging: the clamped
threshold fails the `mergeThreshold > 0` guard, so every cell is left
exactly as it was and the set of distinct colors in the grid is unchanged. -/
theorem merge_threshold_zero_noop (g : PixelGrid) :
    colorMergeStep 0 g = g ∧ gridColors (colorMergeStep 0 g) = gridColors g := by
  have h : colorMergeStep 0 g = g := by
    simp [colorMergeStep, clampThreshold]
  exact ⟨h, by rw [h]⟩

/-- C9: catalog lookup never throws. `getColorKeyByHex` is total; it
uppercases the hex before the table lookup (so it cannot distinguish two
spellings with the same uppercase form), it returns the catalog's code when
one exists, and it returns the sentinel `"?"` when no mapping exists; and on
non-special inputs `getDisplayColorKey` coincides with it. -/
theorem catalog_lookup_sentinel (table : CatalogTable) (h1 h2 : String)
    (sys : ColorSystem) (hcase : hexUpper h1 = hexUpper h2) :
    getColorKeyByHex table h1 sys = getColorKeyByHex table h2 sys ∧
    (truthyCode (tableEntry table (hexUpper h1)) sys = none →
      getColorKeyByHex table h1 sys = "?") ∧
    (∀ code, truthyCode (tableEntry table (hexUpper h1)) sys = some code →
      getColorKeyByHex table h1 sys = code) ∧
    (¬ (h1 = "ERASE" ∨ h1 = "" ∨ h1 = "?") →
      getDisplayColorKey table h1 sys = getColorKeyByHex table h1 sys) := by
  refine ⟨?_, ?_, ?_, ?_⟩
  · simp only [getColorKeyByHex, hcase]
  · intro h
    simp only [getColorKeyByHex, h]
  · intro code h
    simp only [getColorKeyByHex, h]
  · intro h
    simp only [getDisplayColorKey, getColorKeyByHex, if_neg h]

/-- Witness for `catalog_lookup_sentinel` at a concrete table, two concrete
spellings of the same hex, and a concrete catalog. -/
theorem catalog_lookup_sentinel_witness :
    hexUpper "#ffffff" = hexUpper "#FfFfFf" ∧
    getColorKeyByHex tableWitness "#ffffff" ColorSystem.MARD =
      getColorKeyByHex tableWitness "#FfFfFf" ColorSystem.MARD :=
  ⟨by decide,
    (catalog_lookup_sentinel tableWitness "#ffffff" "#FfFfFf" ColorSystem.MARD (by decide)).1⟩

/-! ### Background removal: helper lemmas -/

theorem getD_set {α : Type _} (l : List α) (n m : Nat) (a d : α) :
    (l.set n a).getD m d = if n = m ∧ n < l.length then a else l.getD m d := by
  split_ifs with h
  · obtain ⟨rfl, hlt⟩ := h
    simp [List.getD, List.getElem?_set_self, hlt]
  · by_cases hnm : n = m
    · subst hnm
      have hge : l.length ≤ n := by
        rcases Nat.lt_or_ge n l.length with h1 | h1
        · exact absurd ⟨rfl, h1⟩ h
        · exact h1
      rw [List.set_eq_of_length_le hge]
    · simp [List.getD, List.getElem?_set_ne hnm]

theorem cellAt_set_row (g : PixelGrid) (y : Nat) (r : List MappedPixel) (y' x' : Nat) :
    cellAt (g.set y r) y' x' =
      if y = y' ∧ y < g.length then r.getD x' defaultPixel else cellAt g y' x' := by
  unfold cellAt
  rw [getD_set g y y' r []]
  split_ifs with h
  · rfl
  · rfl

theorem cellAt_markExternal (g : PixelGrid) (y x y' x' : Nat) :
    cellAt (markExternal g y x) y' x' = cellAt g y' x' ∨
    (y' = y ∧ x' = x ∧
      cellAt (markExternal g y x) y' x' = { cellAt g y x with isExternal := true }) := by
  unfold markExternal
  rw [cellAt_set_row]
  split_ifs with h
  · rw [getD_set]
    split_ifs with h2
    · right
      exact ⟨h.1.symm, h2.1.symm, rfl⟩
    · left
      rw [cellAt, h.1]
  · left
    rfl

theorem cellAt_markExternal_colorKey (g : PixelGrid) (y x y' x' : Nat) :
    (cellAt (markExternal g y x) y' x').color = (cellAt g y' x').color ∧
    (cellAt (markExternal g y x) y' x').key = (cellAt g y' x').key := by
  rcases cellAt_markExternal g y x y' x' with h | ⟨hy, hx, h⟩
  · rw [h]
    exact ⟨rfl, rfl⟩
  · subst hy
    subst hx
    rw [h]
    exact ⟨rfl, rfl⟩

theorem cellAt_markExternal_mono (g : PixelGrid) (y x y' x' : Nat)
    (h : (cellAt g y' x').isExternal = true) :
    (cellAt (markExternal g y x) y' x').isExternal = true := by
  rcases cellAt_markExternal g y x y' x' with h2 | ⟨_, _, h2⟩ <;> rw [h2]
  exact h

theorem cellAt_markExternal_self (g : PixelGrid) (y x : Nat)
    (hy : y < g.length) (hx : x < (g.getD y []).length) :
    cellAt (markExternal g y x) y x = { cellAt g y x with isExternal := true } := by
  unfold markExternal
  rw [cellAt_set_row]
  rw [if_pos ⟨rfl, hy⟩, getD_set, if_pos ⟨rfl, hx⟩]

theorem markExternal_length (g : PixelGrid) (y x : Nat) :
    (markExternal g y x).length = g.length := by
  simp [markExternal]

theorem markExternal_rowLength (g : PixelGrid) (y x y' : Nat) :
    ((markExternal g y x).getD y' []).length = (g.getD y' []).length := by
  unfold markExternal
  rw [getD_set]
  split_ifs with h
  · rw [List.length_set, h.1]
  · rfl

/-- A cell whose color is a nonempty string is a genuine in-range cell. -/
theorem cellAt_real_of_color_ne (g : PixelGrid) (y x : Nat)
    (h : (cellAt g y x).color ≠ "") : y < g.length ∧ x < (g.getD y []).length := by
  constructor
  · by_contra hy
    have hrow : g.getD y [] = [] := by
      rw [List.getD_eq_getElem?_getD, List.getElem?_eq_none (by omega)]
      rfl
    rw [cellAt, hrow] at h
    simp [defaultPixel] at h
  · by_contra hx
    rw [cellAt, List.getD_eq_getElem?_getD, List.getElem?_eq_none (by omega)] at h
    simp [defaultPixel] at h

/-- The background flood fill only flips `isExternal` flags: grid shape,
colors and keys are preserved, and external flags are monotone. -/
theorem bgFloodLoop_preserves (rows cols : Nat) (t : String) (g : PixelGrid)
    (q : List (Int × Int)) (v : Finset (Int × Int)) :
    gridRows (bgFloodLoop rows cols t g q v) = gridRows g ∧
    (∀ y, ((bgFloodLoop rows cols t g q v).getD y []).length = (g.getD y []).length) ∧
    (∀ y x, (cellAt (bgFloodLoop rows cols t g q v) y x).color = (cellAt g y x).color) ∧
    (∀ y x, (cellAt (bgFloodLoop rows cols t g q v) y x).key = (cellAt g y x).key) ∧
    (∀ y x, (cellAt g y x).isExternal = true →
      (cellAt (bgFloodLoop rows cols t g q v) y x).isExternal = true) := by
  induction g, q, v using bgFloodLoop.induct rows cols t with
  | case1 g v =>
    rw [bgFloodLoop]
    exact ⟨rfl, fun _ => rfl, fun _ _ => rfl, fun _ _ => rfl, fun _ _ h => h⟩
  | case2 g p q v hguard ih =>
    rw [bgFloodLoop, if_pos hguard]
    exact ih
  | case3 g p q v hguard hcolor ih =>
    rw [bgFloodLoop, if_neg hguard, if_pos hcolor]
    exact ih
  | case4 g p q v hguard hcolor ih =>
    rw [bgFloodLoop, if_neg hguard, if_neg hcolor]
    obtain ⟨ih1, ih2, ih3, ih4, ih5⟩ := ih
    refine ⟨?_, ?_, ?_, ?_, ?_⟩
    · rw [ih1]
      simp [gridRows, markExternal_length]
    · intro y
      rw [ih2 y, markExternal_rowLength]
    · intro y x
      rw [ih3 y x, (cellAt_markExternal_colorKey g _ _ y x).1]
    · intro y x
      rw [ih4 y x, (cellAt_markExternal_colorKey g _ _ y x).2]
    · intro y x h
      exact ih5 y x (cellAt_markExternal_mono g _ _ y x h)

/-- A flood fill whose seed is in bounds and carries the (nonempty) target
color marks the seed external. -/
theorem bgFloodFill_marks_seed (rows cols : Nat) (g : PixelGrid) (y x : Int)
    (t : String) (hy0 : 0 ≤ y) (hy1 : y < (rows : Int)) (hx0 : 0 ≤ x)
    (hx1 : x < (cols : Int)) (ht : t ≠ "")
    (hc : (cellAt g y.toNat x.toNat).color = t) :
    (cellAt (bgFloodFill rows cols g y x t) y.toNat x.toNat).isExternal = true := by
  have hreal := cellAt_real_of_color_ne g y.toNat x.toNat (by rw [hc]; exact ht)
  rw [bgFloodFill, bgFloodLoop]
  rw [if_neg (by push_neg; exact ⟨hy0, hy1, hx0, hx1, Finset.not_mem_empty _⟩)]
  rw [if_neg (by simpa using hc)]
  have hmarked := cellAt_markExternal_self g y.toNat x.toNat hreal.1 hreal.2
  exact (bgFloodLoop_preserves rows cols t _ _ _).2.2.2.2 y.toNat x.toNat (by rw [hmarked])

/-- A flood fill whose seed is out of bounds does nothing. -/
theorem bgFloodFill_oob (rows cols : Nat) (g : PixelGrid) (y x : Int) (t : String)
    (h : y < 0 ∨ (rows : Int) ≤ y ∨ x < 0 ∨ (cols : Int) ≤ x) :
    bgFloodFill rows cols g y x t = g := by
  rw [bgFloodFill, bgFloodLoop]
  rw [if_pos (by tauto)]
  rw [bgFloodLoop]

theorem foldl_fun_congr {α β : Type _} (l : List β) (f f' : α → β → α) (i : α)
    (h : ∀ a b, b ∈ l → f a b = f' a b) : l.foldl f i = l.foldl f' i := by
  induction l generalizing i with
  | nil => rfl
  | cons b bs ih =>
    simp only [List.foldl_cons]
    rw [h i b (List.mem_cons_self b bs)]
    exact ih _ (fun a c hc => h a c (List.mem_cons_of_mem b hc))

theorem edgeColorCounts_congr (g g' : PixelGrid) (hr : gridRows g' = gridRows g)
    (hc : gridCols g' = gridCols g)
    (hcol : ∀ y x, (cellAt g' y x).color = (cellAt g y x).color) :
    edgeColorCounts g' = edgeColorCounts g := by
  unfold edgeColorCounts
  rw [hr, hc]
  exact foldl_fun_congr _ _ _ _ (fun a p _ => by rw [hcol p.1 p.2])

theorem bgSeedLoop_preserves (rows cols : Nat) (bg : String) (seeds : List (Int × Int))
    (g : PixelGrid) :
    gridRows (bgSeedLoop rows cols bg seeds g) = gridRows g ∧
    (∀ y, ((bgSeedLoop rows cols bg seeds g).getD y []).length = (g.getD y []).length) ∧
    (∀ y x, (cellAt (bgSeedLoop rows cols bg seeds g) y x).color = (cellAt g y x).color) ∧
    (∀ y x, (cellAt (bgSeedLoop rows cols bg seeds g) y x).key = (cellAt g y x).key) ∧
    (∀ y x, (cellAt g y x).isExternal = true →
      (cellAt (bgSeedLoop rows cols bg seeds g) y x).isExternal = true) := by
  induction seeds generalizing g with
  | nil => exact ⟨rfl, fun _ => rfl, fun _ _ => rfl, fun _ _ => rfl, fun _ _ h => h⟩
  | cons q rest ih =>
    rw [bgSeedLoop, List.foldl_cons]
    by_cases hcond : (cellAt g q.1.toNat q.2.toNat).color = bg ∧
        (cellAt g q.1.toNat q.2.toNat).isExternal = false
    · rw [if_pos hcond]
      obtain ⟨i1, i2, i3, i4, i5⟩ := ih (bgFloodFill rows cols g q.1 q.2 bg)
      have hp := bgFloodLoop_preserves rows cols bg g
        [(q.1, q.2)] ∅
      rw [bgSeedLoop] at i1 i2 i3 i4 i5
      refine ⟨?_, ?_, ?_, ?_, ?_⟩
      · rw [i1]
        exact hp.1
      · intro y
        rw [i2 y]
        exact hp.2.1 y
      · intro y x
        rw [i3 y x]
        exact hp.2.2.1 y x
      · intro y x
        rw [i4 y x]
        exact hp.2.2.2.1 y x
      · intro y x h
        exact i5 y x (hp.2.2.2.2 y x h)
    · rw [if_neg hcond]
      have := ih g
      rw [bgSeedLoop] at this
      exact this

/-- After a seed loop over `seeds`, every in-bounds seed position that still
carries the (nonempty) background color is external. -/
theorem bgSeedLoop_marks (rows cols : Nat) (bg : String) (seeds : List (Int × Int))
    (g : PixelGrid) (hbg : bg ≠ "") :
    ∀ p ∈ seeds, 0 ≤ p.1 → p.1 < (rows : Int) → 0 ≤ p.2 → p.2 < (cols : Int) →
      (cellAt (bgSeedLoop rows cols bg seeds g) p.1.toNat p.2.toNat).color = bg →
      (cellAt (bgSeedLoop rows cols bg seeds g) p.1.toNat p.2.toNat).isExternal = true := by
  induction seeds generalizing g with
  | nil => intro p hp; simp at hp
  | cons q rest ih =>
    intro p hp hy0 hy1 hx0 hx1 hcolor
    rw [bgSeedLoop, List.foldl_cons] at hcolor ⊢
    rcases List.mem_cons.mp hp with rfl | hrest
    · by_cases hcond : (cellAt g p.1.toNat p.2.toNat).color = bg ∧
          (cellAt g p.1.toNat p.2.toNat).isExternal = false
      · rw [if_pos hcond] at hcolor ⊢
        have hmark := bgFloodFill_marks_seed rows cols g p.1 p.2 bg hy0 hy1 hx0 hx1 hbg hcond.1
        have hpres := bgSeedLoop_preserves rows cols bg rest (bgFloodFill rows cols g p.1 p.2 bg)
        rw [bgSeedLoop] at hpres
        exact hpres.2.2.2.2 p.1.toNat p.2.toNat hmark
      · rw [if_neg hcond] at hcolor ⊢
        have hpres := bgSeedLoop_preserves rows cols bg rest g
        rw [bgSeedLoop] at hpres
        have hcg : (cellAt g p.1.toNat p.2.toNat).color = bg := by
          rw [← hpres.2.2.1 p.1.toNat p.2.toNat]
          exact hcolor
        have hext : (cellAt g p.1.toNat p.2.toNat).isExternal = true := by
          rcases Bool.eq_false_or_eq_true (cellAt g p.1.toNat p.2.toNat).isExternal with h | h
          · exact h
          · exact absurd ⟨hcg, h⟩ hcond
        exact hpres.2.2.2.2 p.1.toNat p.2.toNat hext
    · by_cases hcond : (cellAt g q.1.toNat q.2.toNat).color = bg ∧
          (cellAt g q.1.toNat q.2.toNat).isExternal = false
      · rw [if_pos hcond] at hcolor ⊢
        have := ih (bgFloodFill rows cols g q.1 q.2 bg) p hrest hy0 hy1 hx0 hx1
        rw [bgSeedLoop] at this
        exact this hcolor
      · rw [if_neg hcond] at hcolor ⊢
        have := ih g p hrest hy0 hy1 hx0 hx1
        rw [bgSeedLoop] at this
        exact this hcolor

/-- A seed loop in which every seed either fails its guard or floods
vacuously leaves the grid unchanged. -/
theorem bgSeedLoop_id (rows cols : Nat) (bg : String) (seeds : List (Int × Int))
    (g : PixelGrid)
    (h : ∀ p ∈ seeds,
      ((cellAt g p.1.toNat p.2.toNat).color = bg ∧
          (cellAt g p.1.toNat p.2.toNat).isExternal = false) →
        bgFloodFill rows cols g p.1 p.2 bg = g) :
    bgSeedLoop rows cols bg seeds g = g := by
  induction seeds with
  | nil => rfl
  | cons q rest ih =>
    rw [bgSeedLoop, List.foldl_cons]
    by_cases hcond : (cellAt g q.1.toNat q.2.toNat).color = bg ∧
        (cellAt g q.1.toNat q.2.toNat).isExternal = false
    · rw [if_pos hcond, h q (List.mem_cons_self q rest) hcond]
      have := ih (fun p hp => h p (List.mem_cons_of_mem q hp))
      rw [bgSeedLoop] at this
      exact this
    · rw [if_neg hcond]
      have := ih (fun p hp => h p (List.mem_cons_of_mem q hp))
      rw [bgSeedLoop] at this
      exact this

/-- C4: Background Removal is idempotent — a second run on an
already-processed grid (which tallies the same colors, hence selects the
same background color) marks no new cells, so the grids after one and two
runs are identical; and marking never changes a cell's color or key. -/
theorem background_removal_idempotent (g : PixelGrid) :
    removeBackgroundStep (removeBackgroundStep g) = removeBackgroundStep g ∧
    (∀ y x, (cellAt (removeBackgroundStep g) y x).color = (cellAt g y x).color ∧
      (cellAt (removeBackgroundStep g) y x).key = (cellAt g y x).key) := by
  have hdef : ∀ h : PixelGrid, removeBackgroundStep h =
      if mostCommonEdgeColor (edgeColorCounts h) = "" then h
      else bgSeedLoop (gridRows h) (gridCols h) (mostCommonEdgeColor (edgeColorCounts h))
        (bgSeedPositions (gridRows h) (gridCols h)) h := fun _ => rfl
  by_cases hbg : mostCommonEdgeColor (edgeColorCounts g) = ""
  · have h1 : removeBackgroundStep g = g := by rw [hdef g, if_pos hbg]
    simp [h1]
  · have h1 : removeBackgroundStep g =
        bgSeedLoop (gridRows g) (gridCols g) (mostCommonEdgeColor (edgeColorCounts g))
          (bgSeedPositions (gridRows g) (gridCols g)) g := by rw [hdef g, if_neg hbg]
    have hpres := bgSeedLoop_preserves (gridRows g) (gridCols g)
      (mostCommonEdgeColor (edgeColorCounts g))
      (bgSeedPositions (gridRows g) (gridCols g)) g
    rw [← h1] at hpres
    have hgr : gridRows (removeBackgroundStep g) = gridRows g := hpres.1
    have hgc : gridCols (removeBackgroundStep g) = gridCols g := hpres.2.1 0
    have htally : edgeColorCounts (removeBackgroundStep g) = edgeColorCounts g :=
      edgeColorCounts_congr g (removeBackgroundStep g) hgr hgc hpres.2.2.1
    refine ⟨?_, fun y x => ⟨hpres.2.2.1 y x, hpres.2.2.2.1 y x⟩⟩
    rw [hdef (removeBackgroundStep g), htally, if_neg hbg, hgr, hgc]
    apply bgSeedLoop_id
    intro p hp hcond
    by_cases hin : 0 ≤ p.1 ∧ p.1 < ((gridRows g : Nat) : Int) ∧ 0 ≤ p.2 ∧
        p.2 < ((gridCols g : Nat) : Int)
    · exfalso
      have hmarks := bgSeedLoop_marks (gridRows g) (gridCols g)
        (mostCommonEdgeColor (edgeColorCounts g))
        (bgSeedPositions (gridRows g) (gridCols g)) g hbg p hp
        hin.1 hin.2.1 hin.2.2.1 hin.2.2.2
      rw [← h1] at hmarks
      have := hmarks hcond.1
      rw [this] at hcond
      exact absurd hcond.2 (by simp)
    · apply bgFloodFill_oob
      push_neg at hin
      rcases Int.lt_or_le p.1 0 with h' | h'
      · exact Or.inl h'
      rcases Int.lt_or_le p.1 (gridRows g : Int) with h'' | h''
      · rcases Int.lt_or_le p.2 0 with h3 | h3
        · exact Or.inr (Or.inr (Or.inl h3))
        · exact Or.inr (Or.inr (Or.inr (hin h' h'' h3)))
      · exact Or.inr (Or.inl h'')

/-! ### Background color selection: helper lemmas -/

theorem mostCommonEdgeColor_eq_edgeSelection (tally : List (String × Nat)) :
    mostCommonEdgeColor tally = (edgeSelection tally).1 := rfl

/-- The selection fold keeps the first entry of maximal count that beats the
initial accumulator. -/
theorem edgeSelection_first_max (l : List (String × Nat)) (acc : String × Nat) :
    (l.foldl (fun acc e => if e.2 > acc.2 then e else acc) acc = acc ∧
      ∀ e ∈ l, e.2 ≤ acc.2) ∨
    (∃ l1 l2, l = l1 ++ (l.foldl (fun acc e => if e.2 > acc.2 then e else acc) acc) :: l2 ∧
      acc.2 < (l.foldl (fun acc e => if e.2 > acc.2 then e else acc) acc).2 ∧
      (∀ e ∈ l1, e.2 < (l.foldl (fun acc e => if e.2 > acc.2 then e else acc) acc).2) ∧
      (∀ e ∈ l2, e.2 ≤ (l.foldl (fun acc e => if e.2 > acc.2 then e else acc) acc).2)) := by
  induction l generalizing acc with
  | nil => exact Or.inl ⟨rfl, by simp⟩
  | cons e es ih =>
    simp only [List.foldl_cons]
    by_cases h : e.2 > acc.2
    · rw [if_pos h]
      rcases ih e with ⟨heq, hle⟩ | ⟨l1, l2, hsplit, hacc, hl1, hl2⟩
      · refine Or.inr ⟨[], es, ?_, ?_, ?_, ?_⟩
        · rw [heq]
          rfl
        · rw [heq]; exact h
        · simp
        · rw [heq]; exact hle
      · refine Or.inr ⟨e :: l1, l2, ?_, ?_, ?_, ?_⟩
        · rw [List.cons_append, ← hsplit]
        · exact lt_trans h hacc
        · intro e' he'
          rcases List.mem_cons.mp he' with rfl | he'
          · exact hacc
          · exact hl1 e' he'
        · exact hl2
    · rw [if_neg h]
      push_neg at h
      rcases ih acc with ⟨heq, hle⟩ | ⟨l1, l2, hsplit, hacc, hl1, hl2⟩
      · refine Or.inl ⟨heq, ?_⟩
        intro e' he'
        rcases List.mem_cons.mp he' with rfl | he'
        · exact h
        · exact hle e' he'
      · refine Or.inr ⟨e :: l1, l2, ?_, hacc, ?_, hl2⟩
        · rw [List.cons_append, ← hsplit]
        · intro e' he'
          rcases List.mem_cons.mp he' with rfl | he'
          · exact lt_of_le_of_lt h hacc
          · exact hl1 e' he'

theorem edgeTallyPositions_nodup (rows cols : Nat) (hr : 2 ≤ rows) (hc : 2 ≤ cols) :
    (edgeTallyPositions rows cols).Nodup := by
  unfold edgeTallyPositions
  simp only [List.nodup_append, List.disjoint_append_left, List.mem_map, List.mem_range,
    List.mem_range'_1, List.Disjoint]
  refine ⟨⟨⟨?_, ?_, ?_⟩, ?_, ?_⟩, ?_, ?_⟩
  · exact List.Nodup.map (fun a b hab => by simpa using hab) (List.nodup_range cols)
  · exact List.Nodup.map (fun a b hab => by simpa using hab) (List.nodup_range cols)
  · rintro a ⟨x1, hx1, rfl⟩ ⟨x2, hx2, heq⟩
    have := (Prod.mk.injEq _ _ _ _).mp heq
    omega
  · exact List.Nodup.map (fun a b hab => by simpa using hab) (List.nodup_range' 1 (rows - 2))
  · rintro a ha ⟨y, hy, rfl⟩
    rcases List.mem_append.mp ha with h | h <;>
      · simp only [List.mem_map, List.mem_range] at h
        obtain ⟨x, hx, heq⟩ := h
        have := (Prod.mk.injEq _ _ _ _).mp heq
        omega
  · exact List.Nodup.map (fun a b hab => by simpa using hab) (List.nodup_range' 1 (rows - 2))
  · rintro a ha ⟨y, hy, rfl⟩
    rcases List.mem_append.mp ha with h | h
    · rcases List.mem_append.mp h with h2 | h2 <;>
        · simp only [List.mem_map, List.mem_range] at h2
          obtain ⟨x, hx, heq⟩ := h2
          have := (Prod.mk.injEq _ _ _ _).mp heq
          omega
    · simp only [List.mem_map, List.mem_range'_1] at h
      obtain ⟨y2, hy2, heq⟩ := h
      have := (Prod.mk.injEq _ _ _ _).mp heq
      omega

/-- C6 counterexample: on the 4×1 grid `gridBgCx` the code tallies the two
interior border cells (color `"B"`) twice each — its tally is not the
corners-once border tally — and it therefore selects `"B"` where the tally
described by the claim (each border cell once, ties to the first color in
scan order) selects `"A"`. -/
theorem edge_tally_counterexample :
    edgeColorCounts gridBgCx = [("A", 2), ("B", 4)] ∧
    claimEdgeTally gridBgCx = [("A", 2), ("B", 2)] ∧
    mostCommonEdgeColor (edgeColorCounts gridBgCx) = "B" ∧
    mostCommonEdgeColor (claimEdgeTally gridBgCx) = "A" := by
  refine ⟨?_, ?_, ?_, ?_⟩ <;> rfl

/-- C6 (amended): on grids with at least two rows and two columns the four
edge-tally loops visit each border cell exactly once (corners once, scan
order top, bottom, left and right without corners), so the code's tally is
exactly the corners-once tally of the claim, and the selected background
color is the first color reaching the maximal tally (in tally scan order);
on single-row or single-column grids the code can count border cells twice,
diverging from the corners-once tally (see `edge_tally_counterexample`). -/
theorem edge_tally_corners_once (g : PixelGrid) (hr : 2 ≤ gridRows g)
    (hc : 2 ≤ gridCols g) :
    edgeColorCounts g = claimEdgeTally g ∧
    mostCommonEdgeColor (edgeColorCounts g) = mostCommonEdgeColor (claimEdgeTally g) ∧
    ((edgeSelection (edgeColorCounts g) = ("", 0) ∧ ∀ e ∈ edgeColorCounts g, e.2 ≤ 0) ∨
      ∃ l1 l2, edgeColorCounts g = l1 ++ edgeSelection (edgeColorCounts g) :: l2 ∧
        (∀ e ∈ l1, e.2 < (edgeSelection (edgeColorCounts g)).2) ∧
        (∀ e ∈ l2, e.2 ≤ (edgeSelection (edgeColorCounts g)).2)) := by
  have hpos : edgeColorCounts g = claimEdgeTally g := by
    unfold edgeColorCounts claimEdgeTally
    rw [List.dedup_eq_self.mpr (edgeTallyPositions_nodup (gridRows g) (gridCols g) hr hc)]
  refine ⟨hpos, by rw [hpos], ?_⟩
  rcases edgeSelection_first_max (edgeColorCounts g) ("", 0) with ⟨heq, hle⟩ | h
  · exact Or.inl ⟨heq, hle⟩
  · obtain ⟨l1, l2, hsplit, _, hl1, hl2⟩ := h
    exact Or.inr ⟨l1, l2, hsplit, hl1, hl2⟩

/-- Witness for `edge_tally_corners_once` on the concrete 2×2 grid
`gridBgWitness`. -/
theorem edge_tally_corners_once_witness :
    2 ≤ gridRows gridBgWitness ∧ 2 ≤ gridCols gridBgWitness ∧
    edgeColorCounts gridBgWitness = claimEdgeTally gridBgWitness :=
  ⟨by decide, by decide,
    (edge_tally_corners_once gridBgWitness (by decide) (by decide)).1⟩

/-! ### Color merge: helper lemmas -/

theorem foldl_invariant {α β : Type _} (P : α → Prop) (f : α → β → α) (l : List β)
    (i : α) (hi : P i) (hstep : ∀ a b, b ∈ l → P a → P (f a b)) : P (l.foldl f i) := by
  induction l generalizing i with
  | nil => exact hi
  | cons b bs ih =>
    exact ih (f i b) (hstep i b (List.mem_cons_self b bs) hi)
      (fun a c hc ha => hstep a c (List.mem_cons_of_mem b hc) ha)

theorem mem_allCells (g : PixelGrid) (px : MappedPixel) :
    px ∈ allCells g ↔ ∃ row ∈ g, px ∈ row := by
  unfold allCells
  induction g with
  | nil => simp
  | cons row rows ih =>
    simp only [List.foldr_cons, List.mem_append, List.mem_cons, ih]
    constructor
    · rintro (h | ⟨r, hr, hpx⟩)
      · exact ⟨row, Or.inl rfl, h⟩
      · exact ⟨r, Or.inr hr, hpx⟩
    · rintro ⟨r, rfl | hr, hpx⟩
      · exact Or.inl hpx
      · exact Or.inr ⟨r, hr, hpx⟩

theorem mem_firstOccurrences {α : Type _} [DecidableEq α] (l : List α) (x : α) :
    x ∈ firstOccurrences l ↔ x ∈ l := by
  unfold firstOccurrences
  suffices h : ∀ acc : List α,
      (x ∈ l.foldl (fun acc c => if c ∈ acc then acc else acc ++ [c]) acc ↔
        x ∈ acc ∨ x ∈ l) by
    rw [h []]
    simp
  induction l with
  | nil => intro acc; simp
  | cons c cs ih =>
    intro acc
    simp only [List.foldl_cons]
    by_cases hc : c ∈ acc
    · rw [if_pos hc, ih acc]
      constructor
      · rintro (h | h)
        · exact Or.inl h
        · exact Or.inr (List.mem_cons_of_mem c h)
      · rintro (h | h)
        · exact Or.inl h
        · rcases List.mem_cons.mp h with rfl | h
          · exact Or.inl hc
          · exact Or.inr h
    · rw [if_neg hc, ih (acc ++ [c])]
      simp only [List.mem_append, List.mem_singleton, List.mem_cons]
      tauto

theorem firstOccurrences_nodup {α : Type _} [DecidableEq α] (l : List α) :
    (firstOccurrences l).Nodup := by
  unfold firstOccurrences
  have h : ∀ acc : List α, acc.Nodup →
      (l.foldl (fun acc c => if c ∈ acc then acc else acc ++ [c]) acc).Nodup := by
    intro acc hacc
    apply foldl_invariant List.Nodup
    · exact hacc
    · intro a b _ ha
      by_cases hb : b ∈ a
      · rw [if_pos hb]; exact ha
      · rw [if_neg hb]
        rw [List.nodup_append]
        exact ⟨ha, List.nodup_singleton b, by simpa using hb⟩
  exact h [] List.nodup_nil

theorem firstOccurrences_append {α : Type _} [DecidableEq α] (l : List α) (c : α) :
    firstOccurrences (l ++ [c]) =
      if c ∈ firstOccurrences l then firstOccurrences l else firstOccurrences l ++ [c] := by
  unfold firstOccurrences
  rw [List.foldl_append]
  rfl

theorem mergeTally_eq_tallyOf (g : PixelGrid) : mergeTally g = tallyOf (allCells g) := by
  suffices h : ∀ (rows : PixelGrid) (init : List TallyEntry),
      rows.foldl (fun acc row => row.foldl tallyStep acc) init =
        (rows.foldr (fun row acc => row ++ acc) []).foldl tallyStep init by
    exact h g []
  intro rows
  induction rows with
  | nil => intro init; rfl
  | cons row rs ih =>
    intro init
    simp only [List.foldl_cons, List.foldr_cons, List.foldl_append]
    exact ih _

theorem specTally_eq_specTallyOf (g : PixelGrid) : specTally g = specTallyOf (allCells g) := rfl

/-- Every tally entry's color occurs on some cell of the grid. -/
theorem mergeTally_keys_mem (g : PixelGrid) :
    ∀ e ∈ mergeTally g, e.1 ∈ gridColors g := by
  rw [mergeTally_eq_tallyOf]
  unfold tallyOf
  refine foldl_invariant (fun acc => ∀ e ∈ acc, e.1 ∈ gridColors g) tallyStep (allCells g)
    [] ?_ ?_
  · intro e he
    simp at he
  · intro acc px hpx ha e he
    unfold tallyStep at he
    split_ifs at he with hcnt hfind
    · rcases List.mem_map.mp he with ⟨e', he', rfl⟩
      have hfst : (if e'.1 = px.color then (e'.1, e'.2.1 + 1, e'.2.2) else e').1 = e'.1 := by
        split <;> rfl
      rw [hfst]
      exact ha e' he'
    · rcases h : hexToRgb px.color with _ | rgb
      · simp only [h] at he
        exact ha e he
      · simp only [h] at he
        rcases List.mem_append.mp he with h2 | h2
        · exact ha e h2
        · rcases List.mem_singleton.mp h2 with rfl
          rw [gridColors, List.mem_toFinset, List.mem_map]
          exact ⟨px, hpx, rfl⟩
    · exact ha e he

theorem mergeInner_mem (t : Int) (a : TallyEntry) (laters : List TallyEntry)
    (cmap : List (String × String)) :
    ∀ e ∈ mergeInner t a laters cmap, e ∈ cmap ∨ ∃ b ∈ laters, e = (b.1, a.1) := by
  unfold mergeInner
  refine foldl_invariant
    (fun m => ∀ e ∈ m, e ∈ cmap ∨ ∃ b ∈ laters, e = (b.1, a.1)) _ laters cmap ?_ ?_
  · intro e he
    exact Or.inl he
  · intro m b hb hm e he
    split_ifs at he
    · exact hm e he
    · rcases List.mem_append.mp he with h | h
      · exact hm e h
      · rcases List.mem_singleton.mp h with rfl
        exact Or.inr ⟨b, hb, rfl⟩
    · exact hm e he

/-- Every key and every representative recorded in `colorMap` is a color of
the sorted tally. -/
theorem colorMapSource_mem (t : Int) (sorted : List TallyEntry) :
    ∀ e ∈ colorMapSource t sorted,
      e.1 ∈ sorted.map (fun x => x.1) ∧ e.2 ∈ sorted.map (fun x => x.1) := by
  unfold colorMapSource
  refine foldl_invariant
    (fun m => ∀ e : String × String, e ∈ m →
      e.1 ∈ sorted.map (fun x => x.1) ∧ e.2 ∈ sorted.map (fun x => x.1))
    _ (List.range sorted.length) [] ?_ ?_
  · intro e he
    simp at he
  · intro m index hidx hm e he
    rw [List.mem_range] at hidx
    have hA : sorted.getD index ("", 0, ⟨0, 0, 0⟩) ∈ sorted := by
      rw [List.getD_eq_getElem?_getD, List.getElem?_eq_getElem hidx]
      exact List.getElem_mem hidx
    simp only [] at he
    split_ifs at he
    · exact hm e he
    · rcases mergeInner_mem t _ _ _ e he with h | ⟨b, hb, rfl⟩
      · rcases List.mem_append.mp h with h2 | h2
        · exact hm e h2
        · rcases List.mem_singleton.mp h2 with rfl
          exact ⟨List.mem_map.mpr ⟨_, hA, rfl⟩, List.mem_map.mpr ⟨_, hA, rfl⟩⟩
      · have hbmem : b ∈ sorted := List.mem_of_mem_drop hb
        exact ⟨List.mem_map.mpr ⟨b, hbmem, rfl⟩, List.mem_map.mpr ⟨_, hA, rfl⟩⟩

/-- Rewriting through `colorMap` only produces colors of the sorted tally or
colors already present. -/
theorem applyColorMap_colors_subset (cmap : List (String × String)) (g : PixelGrid)
    (hvals : ∀ e ∈ cmap, e.2 ∈ gridColors g) :
    gridColors (applyColorMap cmap g) ⊆ gridColors g := by
  intro c hc
  rw [gridColors, List.mem_toFinset, List.mem_map] at hc
  obtain ⟨px', hpx', rfl⟩ := hc
  rw [mem_allCells] at hpx'
  obtain ⟨row', hrow', hpx'⟩ := hpx'
  unfold applyColorMap at hrow'
  rcases List.mem_map.mp hrow' with ⟨row, hrow, rfl⟩
  rcases List.mem_map.mp hpx' with ⟨px, hpx, rfl⟩
  have hmem : px ∈ allCells g := (mem_allCells g px).mpr ⟨row, hrow, hpx⟩
  by_cases hempty : px.color = ""
  · rw [if_pos hempty]
    rw [gridColors, List.mem_toFinset, List.mem_map]
    exact ⟨px, hmem, rfl⟩
  · rw [if_neg hempty]
    rcases hlook : colorMapLookup cmap px.color with _ | rep
    · rw [gridColors, List.mem_toFinset, List.mem_map]
      exact ⟨px, hmem, rfl⟩
    · unfold colorMapLookup at hlook
      rcases hfind : cmap.find? (fun e => e.1 = px.color) with _ | e
      · rw [hfind] at hlook
        exact absurd hlook (by simp)
      · rw [hfind] at hlook
        simp only [Option.map_some', Option.some.injEq] at hlook
        have hemem := List.mem_of_find?_eq_some hfind
        have := hvals e hemem
        rw [hlook] at this
        exact this

/-- C2 counterexample: merging `gridMergeCx` at threshold 10 leaves 2
distinct colors, while the larger threshold 14 leaves 3 — at threshold 14
the most frequent color absorbs the second color, which at threshold 10
would itself have absorbed the two rarest colors. -/
theorem merge_monotonicity_counterexample :
    (10 : Int) < 14 ∧
    (gridColors (colorMergeStep 10 gridMergeCx)).card = 2 ∧
    (gridColors (colorMergeStep 14 gridMergeCx)).card = 3 ∧
    ¬ (gridColors (colorMergeStep 14 gridMergeCx)).card ≤
        (gridColors (colorMergeStep 10 gridMergeCx)).card := by
  refine ⟨by norm_num, by decide, by decide, by decide⟩

/-- C2 (amended): Color Merge never introduces a color — for every starting
grid and threshold, the distinct colors of the merged grid are a subset of
the starting grid's distinct colors, so merging never increases their
number; monotonicity in the threshold itself fails (see
`merge_monotonicity_counterexample`). -/
theorem merge_never_adds_colors (g : PixelGrid) (t : Int) :
    gridColors (colorMergeStep t g) ⊆ gridColors g ∧
    (gridColors (colorMergeStep t g)).card ≤ (gridColors g).card := by
  have hstep : colorMergeStep t g =
      if 0 < clampThreshold t then
        applyColorMap (colorMapSource (clampThreshold t) (sortedColors (mergeTally g))) g
      else g := rfl
  have hsub : gridColors (colorMergeStep t g) ⊆ gridColors g := by
    rw [hstep]
    split_ifs with hpos
    · apply applyColorMap_colors_subset
      intro e he
      have hmem := (colorMapSource_mem (clampThreshold t) (sortedColors (mergeTally g)) e he).2
      have hperm : List.Perm (sortedColors (mergeTally g)) (mergeTally g) :=
        List.perm_insertionSort _ _
      rw [(hperm.map (fun x => x.1)).mem_iff] at hmem
      rcases List.mem_map.mp hmem with ⟨te, hte, heq⟩
      rw [← heq]
      exact mergeTally_keys_mem g te hte
    · exact Finset.Subset.refl _
  exact ⟨hsub, Finset.card_le_card hsub⟩

theorem tallyOf_append (cs : List MappedPixel) (px : MappedPixel) :
    tallyOf (cs ++ [px]) = tallyStep (tallyOf cs) px := by
  unfold tallyOf
  rw [List.foldl_append]
  rfl

theorem specTallyOf_key (cs : List MappedPixel) :
    ∀ e ∈ specTallyOf cs,
      e.1 ∈ firstOccurrences ((cs.filter countedPixel).map MappedPixel.color) ∧
        (hexToRgb e.1).isSome = true := by
  intro e he
  rcases List.mem_filterMap.mp he with ⟨k, hk, hfk⟩
  rcases hparse : hexToRgb k with _ | rgb
  · rw [hparse] at hfk
    simp at hfk
  · rw [hparse] at hfk
    simp only [Option.map_some', Option.some.injEq] at hfk
    rw [← hfk]
    exact ⟨hk, by rw [hparse]; rfl⟩

theorem specTallyOf_find_none (cs : List MappedPixel) (c : String)
    (h : c ∉ firstOccurrences ((cs.filter countedPixel).map MappedPixel.color) ∨
      hexToRgb c = none) :
    (specTallyOf cs).find? (fun e => e.1 = c) = none := by
  rw [List.find?_eq_none]
  intro e he hp
  simp only [decide_eq_true_eq] at hp
  obtain ⟨hk, hparse⟩ := specTallyOf_key cs e he
  rw [hp] at hk hparse
  rcases h with h | h
  · exact h hk
  · rw [h] at hparse
    simp at hparse

theorem specTallyOf_find_some (cs : List MappedPixel) (c : String) (rgb : RgbColor)
    (hc : c ∈ firstOccurrences ((cs.filter countedPixel).map MappedPixel.color))
    (hp : hexToRgb c = some rgb) :
    ((specTallyOf cs).find? (fun e => e.1 = c)).isSome = true := by
  rw [List.find?_isSome]
  refine ⟨(c, (cs.filter countedPixel).countP (fun px => px.color = c), rgb), ?_, by simp⟩
  exact List.mem_filterMap.mpr ⟨c, hc, by rw [hp]; rfl⟩

/-- The incrementally built `colorCounts` object is exactly the tally the
specification describes: distinct counted colors in first-occurrence order,
each with its occurrence count and parsed RGB. -/
theorem tallyOf_eq_specTallyOf (cs : List MappedPixel) : tallyOf cs = specTallyOf cs := by
  induction cs using List.reverseRecOn with
  | nil => rfl
  | append_singleton cs px ih =>
    rw [tallyOf_append, ih]
    by_cases hc : countedPixel px = true
    · have hfil : (cs ++ [px]).filter countedPixel = cs.filter countedPixel ++ [px] := by
        rw [List.filter_append]
        simp [hc]
      by_cases hmem : px.color ∈
          firstOccurrences ((cs.filter countedPixel).map MappedPixel.color)
      · rcases hparse : hexToRgb px.color with _ | rgb0
        · have hstep : tallyStep (specTallyOf cs) px = specTallyOf cs := by
            unfold tallyStep
            rw [if_pos hc,
              if_neg (by rw [specTallyOf_find_none cs px.color (Or.inr hparse)]; simp),
              hparse]
          rw [hstep]
          unfold specTallyOf
          rw [hfil, List.map_append, List.map_cons, List.map_nil, firstOccurrences_append,
            if_pos hmem]
          apply List.filterMap_congr
          intro k hk
          rcases hpk : hexToRgb k with _ | rgbk
          · simp
          · have hkc : ¬ px.color = k := by
              intro h
              rw [h, hpk] at hparse
              exact Option.noConfusion hparse
            rw [List.countP_append]
            simp [hkc]
        · have hstep : tallyStep (specTallyOf cs) px =
              (specTallyOf cs).map
                (fun e => if e.1 = px.color then (e.1, e.2.1 + 1, e.2.2) else e) := by
            unfold tallyStep
            rw [if_pos hc, if_pos (specTallyOf_find_some cs px.color rgb0 hmem hparse)]
          rw [hstep]
          unfold specTallyOf
          rw [hfil, List.map_append, List.map_cons, List.map_nil, firstOccurrences_append,
            if_pos hmem, List.map_filterMap]
          apply List.filterMap_congr
          intro k hk
          rcases hpk : hexToRgb k with _ | rgbk
          · simp
          · simp only [Option.map_some']
            by_cases hkc : k = px.color
            · subst hkc
              simp only [if_pos rfl, List.countP_append]
              simp
            · have hck : ¬ px.color = k := fun h => hkc h.symm
              simp only [if_neg hkc, List.countP_append]
              simp [hck]
      · rcases hparse : hexToRgb px.color with _ | rgb0
        · have hstep : tallyStep (specTallyOf cs) px = specTallyOf cs := by
            unfold tallyStep
            rw [if_pos hc,
              if_neg (by rw [specTallyOf_find_none cs px.color (Or.inl hmem)]; simp),
              hparse]
          rw [hstep]
          unfold specTallyOf
          rw [hfil, List.map_append, List.map_cons, List.map_nil, firstOccurrences_append,
            if_neg hmem, List.filterMap_append]
          rw [show (List.filterMap
              (fun c => (hexToRgb c).map
                (fun rgb => (c, ((cs.filter countedPixel ++ [px]).countP
                  (fun q => q.color = c)), rgb))) [px.color]) = [] by
            simp [hparse]]
          rw [List.append_nil]
          apply List.filterMap_congr
          intro k hk
          have hkc : ¬ px.color = k := by
            intro h
            exact hmem (h ▸ hk)
          rw [List.countP_append]
          simp [hkc]
        · have hstep : tallyStep (specTallyOf cs) px =
              specTallyOf cs ++ [(px.color, 1, rgb0)] := by
            unfold tallyStep
            rw [if_pos hc,
              if_neg (by rw [specTallyOf_find_none cs px.color (Or.inl hmem)]; simp),
              hparse]
          rw [hstep]
          unfold specTallyOf
          rw [hfil, List.map_append, List.map_cons, List.map_nil, firstOccurrences_append,
            if_neg hmem, List.filterMap_append]
          congr 1
          · apply List.filterMap_congr
            intro k hk
            have hkc : ¬ px.color = k := by
              intro h
              exact hmem (h ▸ hk)
            rw [List.countP_append]
            simp [hkc]
          · have hzero : (cs.filter countedPixel).countP
                (fun q => q.color = px.color) = 0 := by
              rw [List.countP_eq_zero]
              intro q hq hcontra
              simp only [decide_eq_true_eq] at hcontra
              apply hmem
              rw [mem_firstOccurrences]
              exact List.mem_map.mpr ⟨q, hq, hcontra⟩
            rw [show (List.filterMap
                (fun c => (hexToRgb c).map
                  (fun rgb => (c, ((cs.filter countedPixel ++ [px]).countP
                    (fun q => q.color = c)), rgb))) [px.color]) =
              [(px.color, (cs.filter countedPixel ++ [px]).countP
                (fun q => q.color = px.color), rgb0)] by
              simp [hparse]]
            rw [List.countP_append, hzero]
            simp
    · have hfil : (cs ++ [px]).filter countedPixel = cs.filter countedPixel := by
        rw [List.filter_append]
        simp [hc]
      have hstep : tallyStep (specTallyOf cs) px = specTallyOf cs := by
        unfold tallyStep
        rw [if_neg hc]
      rw [hstep]
      unfold specTallyOf
      rw [hfil]

theorem colorMapLookup_append_of_ne (m xs : List (String × String)) (c : String)
    (h : ∀ e ∈ xs, e.1 ≠ c) :
    colorMapLookup (m ++ xs) c = colorMapLookup m c := by
  unfold colorMapLookup
  rw [List.find?_append]
  rw [show xs.find? (fun e => e.1 = c) = none from
    List.find?_eq_none.mpr (fun e he hp => h e he (by simpa using hp))]
  rw [Option.or_none]

/-- The inner merge loop records exactly the later colors that were unmerged
when the representative was fixed and lie within the threshold; the entries
it adds along the way never affect its own lookups because the later colors
are pairwise distinct. -/
theorem mergeInner_spec (t : Int) (a : TallyEntry) :
    ∀ (laters : List TallyEntry) (cmap : List (String × String)),
      (laters.map (fun e => e.1)).Nodup →
      mergeInner t a laters cmap =
        cmap ++ (laters.filter (fun b =>
            (colorMapLookup cmap b.1).isNone ∧ colorDistLt a.2.2 b.2.2 t)).map
          (fun b => (b.1, a.1)) := by
  intro laters
  induction laters with
  | nil =>
    intro cmap _
    simp [mergeInner]
  | cons b bs ih =>
    intro cmap hnd
    rw [List.map_cons, List.nodup_cons] at hnd
    obtain ⟨hb1, hnd'⟩ := hnd
    unfold mergeInner
    rw [List.foldl_cons]
    by_cases hlk : (colorMapLookup cmap b.1).isSome = true
    · rw [if_pos hlk]
      have hnone : (colorMapLookup cmap b.1).isNone = false := by
        rcases h : colorMapLookup cmap b.1 with _ | v
        · rw [h] at hlk
          simp at hlk
        · rfl
      have hrec := ih cmap hnd'
      unfold mergeInner at hrec
      rw [hrec, List.filter_cons, if_neg (by simp [hnone])]
    · rw [if_neg hlk]
      have hnone : (colorMapLookup cmap b.1).isNone = true := by
        rcases h : colorMapLookup cmap b.1 with _ | v
        · rfl
        · rw [h] at hlk
          simp at hlk
      by_cases hdist : colorDistLt a.2.2 b.2.2 t = true
      · rw [if_pos hdist]
        have hrec := ih (cmap ++ [(b.1, a.1)]) hnd'
        unfold mergeInner at hrec
        rw [hrec]
        have hfc : bs.filter (fun q =>
              (colorMapLookup (cmap ++ [(b.1, a.1)]) q.1).isNone ∧
                colorDistLt a.2.2 q.2.2 t) =
            bs.filter (fun q =>
              (colorMapLookup cmap q.1).isNone ∧ colorDistLt a.2.2 q.2.2 t) := by
          apply List.filter_congr
          intro q hq
          rw [colorMapLookup_append_of_ne cmap [(b.1, a.1)] q.1
            (by
              intro e he
              rcases List.mem_singleton.mp he with rfl
              intro hcon
              exact hb1 (hcon ▸ List.mem_map.mpr ⟨q, hq, rfl⟩))]
        rw [hfc, List.filter_cons, if_pos (by simp [hnone, hdist]), List.map_cons]
        simp
      · rw [if_neg hdist]
        have hdf : colorDistLt a.2.2 b.2.2 t = false := by
          rcases Bool.eq_false_or_eq_true (colorDistLt a.2.2 b.2.2 t) with h | h
          · exact absurd h hdist
          · exact h
        have hrec := ih cmap hnd'
        unfold mergeInner at hrec
        rw [hrec, List.filter_cons, if_neg (by simp [hdf])]

/-- The index-based double loop of the source builds the same greedy map as
the structural scan of the specification, provided the sorted colors are
pairwise distinct (which tallies always are). -/
theorem colorMapSource_eq_spec (t : Int) (sorted : List TallyEntry)
    (hnd : (sorted.map (fun e => e.1)).Nodup) :
    colorMapSource t sorted = colorMapSpec t sorted [] := by
  suffices h : ∀ (k i : Nat) (cmap : List (String × String)), i + k = sorted.length →
      (List.range' i k).foldl
        (fun cmap index =>
          let colorA := sorted.getD index ("", 0, ⟨0, 0, 0⟩)
          if (colorMapLookup cmap colorA.1).isSome then cmap
          else mergeInner t colorA (sorted.drop (index + 1)) (cmap ++ [(colorA.1, colorA.1)]))
        cmap = colorMapSpec t (sorted.drop i) cmap by
    have h0 := h sorted.length 0 [] (by omega)
    rw [List.drop_zero] at h0
    unfold colorMapSource
    rw [List.range_eq_range']
    exact h0
  intro k
  induction k with
  | zero =>
    intro i cmap hlen
    have : sorted.drop i = [] := by
      apply List.drop_eq_nil_of_le
      omega
    rw [this]
    rfl
  | succ k ih =>
    intro i cmap hlen
    have hi : i < sorted.length := by omega
    have hgetD : sorted.getD i ("", 0, ⟨0, 0, 0⟩) = sorted[i] := by
      rw [List.getD_eq_getElem?_getD, List.getElem?_eq_getElem hi]
      rfl
    have hdrop : sorted.drop i = sorted[i] :: sorted.drop (i + 1) :=
      List.drop_eq_getElem_cons hi
    have hdnd : ((sorted.drop i).map (fun e => e.1)).Nodup :=
      ((List.drop_sublist i sorted).map (fun e => e.1)).nodup hnd
    rw [hdrop, List.map_cons, List.nodup_cons] at hdnd
    obtain ⟨hnotin, hnd'⟩ := hdnd
    rw [List.range'_succ, List.foldl_cons, hdrop]
    rw [colorMapSpec]
    show (List.range' (i + 1) k).foldl _
        (if (colorMapLookup cmap (sorted.getD i ("", 0, ⟨0, 0, 0⟩)).1).isSome then cmap
         else mergeInner t (sorted.getD i ("", 0, ⟨0, 0, 0⟩)) (sorted.drop (i + 1))
           (cmap ++ [((sorted.getD i ("", 0, ⟨0, 0, 0⟩)).1,
             (sorted.getD i ("", 0, ⟨0, 0, 0⟩)).1)])) = _
    rw [hgetD]
    by_cases hlkA : (colorMapLookup cmap sorted[i].1).isSome = true
    · rw [if_pos hlkA, if_pos hlkA]
      exact ih (i + 1) cmap (by omega)
    · rw [if_neg hlkA, if_neg hlkA]
      rw [mergeInner_spec t sorted[i] (sorted.drop (i + 1)) (cmap ++ [(sorted[i].1, sorted[i].1)])
        hnd']
      have hfc : (sorted.drop (i + 1)).filter (fun q =>
            (colorMapLookup (cmap ++ [(sorted[i].1, sorted[i].1)]) q.1).isNone ∧
              colorDistLt sorted[i].2.2 q.2.2 t) =
          (sorted.drop (i + 1)).filter (fun q =>
            (colorMapLookup cmap q.1).isNone ∧ colorDistLt sorted[i].2.2 q.2.2 t) := by
        apply List.filter_congr
        intro q hq
        rw [colorMapLookup_append_of_ne cmap [(sorted[i].1, sorted[i].1)] q.1
          (by
            intro e he
            rcases List.mem_singleton.mp he with rfl
            intro hcon
            exact hnotin (hcon ▸ List.mem_map.mpr ⟨q, hq, rfl⟩))]
      rw [hfc]
      have := ih (i + 1)
        ((cmap ++ [(sorted[i].1, sorted[i].1)]) ++
          ((sorted.drop (i + 1)).filter (fun q =>
            (colorMapLookup cmap q.1).isNone ∧ colorDistLt sorted[i].2.2 q.2.2 t)).map
            (fun q => (q.1, sorted[i].1)))
        (by omega)
      exact this

theorem filterMap_keys (F : List String) (f : String → Option TallyEntry)
    (hf : ∀ k e, f k = some e → e.1 = k) :
    (F.filterMap f).map (fun e => e.1) = F.filter (fun k => (f k).isSome) := by
  induction F with
  | nil => rfl
  | cons k ks ih =>
    rw [List.filterMap_cons, List.filter_cons]
    rcases h : f k with _ | e
    · rw [if_neg (by simp)]
      exact ih
    · rw [if_pos (by rfl), List.map_cons, ih, hf k e h]

theorem specTallyOf_keys_nodup (cs : List MappedPixel) :
    ((specTallyOf cs).map (fun e => e.1)).Nodup := by
  unfold specTallyOf
  rw [filterMap_keys]
  · exact (firstOccurrences_nodup _).filter _
  · intro k e he
    rcases hp : hexToRgb k with _ | rgb
    · rw [hp] at he
      exact Option.noConfusion he
    · rw [hp] at he
      simp only [Option.map_some', Option.some.injEq] at he
      rw [← he]

theorem sortedColors_keys_nodup (tally : List TallyEntry)
    (h : (tally.map (fun e => e.1)).Nodup) :
    ((sortedColors tally).map (fun e => e.1)).Nodup := by
  have hperm : List.Perm (sortedColors tally) tally := List.perm_insertionSort _ _
  exact ((hperm.map (fun e => e.1)).nodup_iff).mpr h

theorem applyColorMap_eq_spec (cmap : List (String × String)) (g : PixelGrid)
    (h : colorMapLookup cmap "" = none) :
    applyColorMap cmap g = applyColorMapSpec cmap g := by
  unfold applyColorMap applyColorMapSpec
  apply List.map_congr_left
  intro row _
  apply List.map_congr_left
  intro px _
  by_cases hempty : px.color = ""
  · rw [if_pos hempty, hempty, h]
  · rw [if_neg hempty]

theorem colorMapSource_lookup_empty (t : Int) (g : PixelGrid) :
    colorMapLookup (colorMapSource t (sortedColors (mergeTally g))) "" = none := by
  unfold colorMapLookup
  rw [show (colorMapSource t (sortedColors (mergeTally g))).find? (fun e => e.1 = "") =
      none from ?_]
  · rfl
  rw [List.find?_eq_none]
  intro e he hp
  simp only [decide_eq_true_eq] at hp
  have hkey := (colorMapSource_mem t (sortedColors (mergeTally g)) e he).1
  have hperm : List.Perm (sortedColors (mergeTally g)) (mergeTally g) :=
    List.perm_insertionSort _ _
  rw [(hperm.map (fun x => x.1)).mem_iff] at hkey
  rcases List.mem_map.mp hkey with ⟨te, hte, heq⟩
  rw [mergeTally_eq_tallyOf, tallyOf_eq_specTallyOf] at hte
  have hsome := (specTallyOf_key (allCells g) te hte).2
  rw [heq, hp] at hsome
  simp [hexToRgb] at hsome

/-- C3: for positive in-range thresholds the color merge block proceeds
exactly as the specification describes — the incremental tally is the
occurrence tally of the non-external, non-empty colors in first-occurrence
order; it is sorted by descending count (stably); the index-based greedy
double loop builds the structural greedy map in which each new
representative absorbs the later still-unmerged colors within the
threshold, never re-evaluated; and every cell whose color was merged is
rewritten to its representative's color and identifier. -/
theorem merge_follows_spec (g : PixelGrid) (t : Int) (h0 : 0 < t) (h450 : t ≤ 450) :
    colorMergeStep t g = specColorMerge t g ∧ mergeTally g = specTally g := by
  have hclamp : clampThreshold t = t := by
    unfold clampThreshold
    rw [if_neg (by omega), if_neg (by omega)]
  have htally : mergeTally g = specTally g := by
    rw [mergeTally_eq_tallyOf, tallyOf_eq_specTallyOf, specTally_eq_specTallyOf]
  have hstep : colorMergeStep t g =
      if 0 < clampThreshold t then
        applyColorMap (colorMapSource (clampThreshold t) (sortedColors (mergeTally g))) g
      else g := rfl
  refine ⟨?_, htally⟩
  rw [hstep, if_pos (by rw [hclamp]; exact h0), hclamp]
  rw [applyColorMap_eq_spec _ g (colorMapSource_lookup_empty t g)]
  rw [colorMapSource_eq_spec t (sortedColors (mergeTally g))
    (sortedColors_keys_nodup _ (by
      rw [mergeTally_eq_tallyOf, tallyOf_eq_specTallyOf]
      exact specTallyOf_keys_nodup (allCells g)))]
  rw [htally]
  rfl

/-- Witness for `merge_follows_spec` at the concrete grid `gridMergeCx` and
threshold 10. -/
theorem merge_follows_spec_witness :
    (0 : Int) < 10 ∧ (10 : Int) ≤ 450 ∧
      colorMergeStep 10 gridMergeCx = specColorMerge 10 gridMergeCx :=
  ⟨by norm_num, by norm_num,
    (merge_follows_spec gridMergeCx 10 (by norm_num) (by norm_num)).1⟩

/-! ### Flood fill: fuel equivalence and correctness -/

theorem floodLoopFuel_eq (dom : Finset (Int × Int)) (ok : Int × Int → Bool)
    (hok : ∀ p, ok p = true → p ∈ dom) :
    ∀ (n : Nat) (stack : List (Int × Int)) (visited : Finset (Int × Int))
      (region : List (Int × Int)),
      stack.length + 4 * (dom \ visited).card ≤ n →
      floodLoopFuel ok n stack visited region = floodLoop dom ok hok stack visited region := by
  intro n
  induction n with
  | zero =>
    intro stack visited region hn
    match stack with
    | [] => rw [floodLoopFuel, floodLoop]
    | p :: rest => simp at hn
  | succ n ih =>
    intro stack visited region hn
    match stack with
    | [] => rw [floodLoopFuel, floodLoop]
    | p :: rest =>
      rw [floodLoopFuel, floodLoop]
      simp only [List.length_cons] at hn
      by_cases hvis : p ∈ visited
      · rw [if_pos hvis, if_pos hvis]
        exact ih rest visited region (by omega)
      · rw [if_neg hvis, if_neg hvis]
        by_cases hokp : ok p = true
        · rw [if_pos hokp, if_pos hokp]
          have hcard : (dom \ insert p visited).card + 1 = (dom \ visited).card := by
            have hmem : p ∈ dom \ visited := Finset.mem_sdiff.mpr ⟨hok p hokp, hvis⟩
            have : dom \ insert p visited = (dom \ visited).erase p := by
              ext q
              simp only [Finset.mem_sdiff, Finset.mem_insert, Finset.mem_erase]
              tauto
            rw [this]
            exact Finset.card_erase_add_one hmem
          apply ih
          simp only [List.length_append, pushedNeighbors, List.length_cons,
            List.length_nil]
          omega
        · rw [if_neg hokp, if_neg hokp]
          have hcard : (dom \ insert p visited).card ≤ (dom \ visited).card := by
            apply Finset.card_le_card
            intro q hq
            simp only [Finset.mem_sdiff, Finset.mem_insert] at hq ⊢
            tauto
          exact ih rest (insert p visited) region (by omega)

theorem scanRegionsLoopFuel_eq (dom : Finset (Int × Int)) (ok : Int × Int → Bool)
    (hok : ∀ p, ok p = true → p ∈ dom) (seedOk : Int × Int → Bool) (n : Nat)
    (hn : 1 + 4 * dom.card ≤ n) :
    ∀ (todo : List (Int × Int)) (visited : Finset (Int × Int))
      (regions : List (List (Int × Int))),
      scanRegionsLoopFuel n ok seedOk todo visited regions =
        scanRegionsLoop dom ok hok seedOk todo visited regions := by
  intro todo
  induction todo with
  | nil =>
    intro visited regions
    rw [scanRegionsLoopFuel, scanRegionsLoop]
  | cons p rest ih =>
    intro visited regions
    rw [scanRegionsLoopFuel, scanRegionsLoop]
    have hcells : floodLoopFuel ok n [p] ∅ [] = floodLoop dom ok hok [p] ∅ [] := by
      apply floodLoopFuel_eq
      simp only [List.length_cons, List.length_nil, Finset.sdiff_empty]
      omega
    by_cases hcond : p ∉ visited ∧ seedOk p = true
    · rw [if_pos hcond, if_pos hcond]
      rw [hcells]
      by_cases hlen : 0 < (floodLoop dom ok hok [p] ∅ []).length
      · rw [if_pos hlen, if_pos hlen, ih]
      · rw [if_neg hlen, if_neg hlen, ih]
    · rw [if_neg hcond, if_neg hcond, ih]

theorem adjacent_symm (p q : Int × Int) (h : adjacent p q) : adjacent q p := by
  obtain ⟨px, py⟩ := p
  obtain ⟨qx, qy⟩ := q
  unfold adjacent pushedNeighbors at h ⊢
  simp only [List.mem_cons, List.mem_singleton, List.not_mem_nil, or_false,
    Prod.mk.injEq] at h ⊢
  omega

theorem cellStep_symm (ok : Int × Int → Bool) : Symmetric (cellStep ok) := by
  rintro p q ⟨h1, h2, h3⟩
  exact ⟨h2, h1, adjacent_symm p q h3⟩

theorem cellReach_symm (ok : Int × Int → Bool) {p q : Int × Int}
    (h : cellReach ok p q) : cellReach ok q p :=
  Relation.ReflTransGen.symmetric (cellStep_symm ok) h

theorem cellReach_trans (ok : Int × Int → Bool) {p q r : Int × Int}
    (h1 : cellReach ok p q) (h2 : cellReach ok q r) : cellReach ok p r :=
  Relation.ReflTransGen.trans h1 h2

/-- Master invariant of the DFS flood-fill loop: starting from a state whose
region is the valid part of the visited set, is reachable from `s`, and
whose stack covers the unexplored frontier, the loop returns a region that
contains the old one, consists of valid cells reachable from `s`, is closed
under valid adjacency, and contains `s` itself when `s` is valid and
tracked. -/
theorem floodLoop_main (dom : Finset (Int × Int)) (ok : Int × Int → Bool)
    (hok : ∀ p, ok p = true → p ∈ dom) (s : Int × Int) :
    ∀ (stack : List (Int × Int)) (visited : Finset (Int × Int))
      (region : List (Int × Int)),
      (∀ p, p ∈ region ↔ (p ∈ visited ∧ ok p = true)) →
      (∀ p ∈ region, cellReach ok s p) →
      (∀ q ∈ stack, ok q = true → cellReach ok s q) →
      (∀ p ∈ region, ∀ q, adjacent p q → q ∈ visited ∨ q ∈ stack) →
      ((∀ p ∈ floodLoop dom ok hok stack visited region, ok p = true ∧ cellReach ok s p) ∧
        (∀ p ∈ region, p ∈ floodLoop dom ok hok stack visited region) ∧
        (∀ p ∈ floodLoop dom ok hok stack visited region, ∀ q, adjacent p q →
          ok q = true → q ∈ floodLoop dom ok hok stack visited region) ∧
        ((s ∈ visited ∨ s ∈ stack) → ok s = true →
          s ∈ floodLoop dom ok hok stack visited region)) := by
  intro stack visited region
  induction stack, visited, region using floodLoop.induct dom ok hok with
  | case1 visited region =>
    intro h1 h2 h3 h4
    rw [floodLoop]
    refine ⟨?_, ?_, ?_, ?_⟩
    · intro p hp
      exact ⟨((h1 p).mp hp).2, h2 p hp⟩
    · intro p hp
      exact hp
    · intro p hp q hadj hq
      rcases h4 p hp q hadj with h | h
      · exact (h1 q).mpr ⟨h, hq⟩
      · simp at h
    · intro hs hoks
      rcases hs with h | h
      · exact (h1 s).mpr ⟨h, hoks⟩
      · simp at h
  | case2 p stack visited region hvis ih =>
    intro h1 h2 h3 h4
    rw [floodLoop, if_pos hvis]
    have hres := ih h1 h2
      (fun q hq hokq => h3 q (List.mem_cons_of_mem p hq) hokq)
      (by
        intro p' hp' q hadj
        rcases h4 p' hp' q hadj with h | h
        · exact Or.inl h
        · rcases List.mem_cons.mp h with rfl | h
          · exact Or.inl hvis
          · exact Or.inr h)
    refine ⟨hres.1, hres.2.1, hres.2.2.1, ?_⟩
    intro hs hoks
    refine hres.2.2.2 ?_ hoks
    rcases hs with h | h
    · exact Or.inl h
    · rcases List.mem_cons.mp h with rfl | h
      · exact Or.inl hvis
      · exact Or.inr h
  | case3 p stack visited region hvis hokp ih =>
    intro h1 h2 h3 h4
    rw [floodLoop, if_neg hvis, if_pos hokp]
    have hreachp : cellReach ok s p := h3 p (List.mem_cons_self p stack) hokp
    have hres := ih
      (by
        intro q
        rw [List.mem_append, List.mem_singleton, Finset.mem_insert]
        constructor
        · rintro (hq | rfl)
          · obtain ⟨hv, ho⟩ := (h1 q).mp hq
            exact ⟨Or.inr hv, ho⟩
          · exact ⟨Or.inl rfl, hokp⟩
        · rintro ⟨rfl | hv, ho⟩
          · exact Or.inr rfl
          · exact Or.inl ((h1 q).mpr ⟨hv, ho⟩))
      (by
        intro q hq
        rcases List.mem_append.mp hq with h | h
        · exact h2 q h
        · rcases List.mem_singleton.mp h with rfl
          exact hreachp)
      (by
        intro q hq hokq
        rcases List.mem_append.mp hq with h | h
        · exact hreachp.tail ⟨hokp, hokq, h⟩
        · exact h3 q (List.mem_cons_of_mem p h) hokq)
      (by
        intro p' hp' q hadj
        rcases List.mem_append.mp hp' with h | h
        · rcases h4 p' h q hadj with hv | hs'
          · exact Or.inl (Finset.mem_insert_of_mem hv)
          · rcases List.mem_cons.mp hs' with rfl | hs'
            · exact Or.inl (Finset.mem_insert_self q visited)
            · exact Or.inr (List.mem_append_right _ hs')
        · rcases List.mem_singleton.mp h with rfl
          exact Or.inr (List.mem_append_left _ hadj))
    refine ⟨hres.1, fun q hq => hres.2.1 q (List.mem_append_left _ hq), hres.2.2.1, ?_⟩
    intro hs hoks
    refine hres.2.2.2 ?_ hoks
    rcases hs with h | h
    · exact Or.inl (Finset.mem_insert_of_mem h)
    · rcases List.mem_cons.mp h with rfl | h
      · exact Or.inl (Finset.mem_insert_self s visited)
      · exact Or.inr (List.mem_append_right _ h)
  | case4 p stack visited region hvis hokp ih =>
    intro h1 h2 h3 h4
    rw [floodLoop, if_neg hvis, if_neg hokp]
    have hres := ih
      (by
        intro q
        rw [Finset.mem_insert]
        constructor
        · intro hq
          obtain ⟨hv, ho⟩ := (h1 q).mp hq
          exact ⟨Or.inr hv, ho⟩
        · rintro ⟨rfl | hv, ho⟩
          · exact absurd ho hokp
          · exact (h1 q).mpr ⟨hv, ho⟩)
      h2
      (fun q hq hokq => h3 q (List.mem_cons_of_mem p hq) hokq)
      (by
        intro p' hp' q hadj
        rcases h4 p' hp' q hadj with h | h
        · exact Or.inl (Finset.mem_insert_of_mem h)
        · rcases List.mem_cons.mp h with rfl | h
          · exact Or.inl (Finset.mem_insert_self q visited)
          · exact Or.inr h)
    refine ⟨hres.1, hres.2.1, hres.2.2.1, ?_⟩
    intro hs hoks
    refine hres.2.2.2 ?_ hoks
    rcases hs with h | h
    · exact Or.inl (Finset.mem_insert_of_mem h)
    · rcases List.mem_cons.mp h with rfl | h
      · exact Or.inl (Finset.mem_insert_self s visited)
      · exact Or.inr h

/-- One flood fill from a valid seed returns exactly the valid cells
connected to the seed. -/
theorem floodLoop_correct (dom : Finset (Int × Int)) (ok : Int × Int → Bool)
    (hok : ∀ p, ok p = true → p ∈ dom) (s : Int × Int) (hs : ok s = true) :
    ∀ p, p ∈ floodLoop dom ok hok [s] ∅ [] ↔ (ok p = true ∧ cellReach ok s p) := by
  have hmain := floodLoop_main dom ok hok s [s] ∅ []
    (by intro p; simp)
    (by intro p hp; simp at hp)
    (by
      intro q hq _
      rcases List.mem_singleton.mp hq with rfl
      exact Relation.ReflTransGen.refl)
    (by intro p hp; simp at hp)
  intro p
  constructor
  · intro hp
    exact hmain.1 p hp
  · rintro ⟨hokp, hreach⟩
    suffices h : ∀ q, cellReach ok s q → ok q = true →
        q ∈ floodLoop dom ok hok [s] ∅ [] by
      exact h p hreach hokp
    intro q hq
    induction hq with
    | refl =>
      intro _
      exact hmain.2.2.2 (Or.inr (List.mem_singleton_self s)) hs
    | tail hab hbc ih =>
      intro hokc
      exact hmain.2.2.1 _ (ih hbc.1) _ hbc.2.2 hokc

/-- A flood fill from an invalid seed returns the empty region. -/
theorem floodLoop_seed_invalid (dom : Finset (Int × Int)) (ok : Int × Int → Bool)
    (hok : ∀ p, ok p = true → p ∈ dom) (s : Int × Int) (hs : ok s = false) :
    floodLoop dom ok hok [s] ∅ [] = [] := by
  rw [floodLoop, if_neg (Finset.not_mem_empty s), if_neg (by simp [hs])]
  rw [floodLoop]

/-- Master invariant of the row-major region scan: all emitted regions are
components of valid seeds, they are pairwise disjoint, earlier regions are
kept, and every still-unscanned seedable cell ends up inside some region. -/
theorem scanRegionsLoop_spec (dom : Finset (Int × Int)) (ok : Int × Int → Bool)
    (hok : ∀ p, ok p = true → p ∈ dom) (seedOk : Int × Int → Bool) :
    ∀ (todo : List (Int × Int)) (visited : Finset (Int × Int))
      (regions : List (List (Int × Int))),
      (∀ p ∈ todo, seedOk p = true → ok p = true) →
      (∀ R ∈ regions, ∃ s, ok s = true ∧
        ∀ q, q ∈ R ↔ (ok q = true ∧ cellReach ok s q)) →
      (∀ p, p ∈ visited ↔ ∃ R ∈ regions, p ∈ R) →
      List.Pairwise (fun R1 R2 => ∀ p, p ∈ R1 → p ∉ R2) regions →
      ((∀ R ∈ scanRegionsLoop dom ok hok seedOk todo visited regions, ∃ s, ok s = true ∧
          ∀ q, q ∈ R ↔ (ok q = true ∧ cellReach ok s q)) ∧
        List.Pairwise (fun R1 R2 => ∀ p, p ∈ R1 → p ∉ R2)
          (scanRegionsLoop dom ok hok seedOk todo visited regions) ∧
        (∀ R ∈ regions, R ∈ scanRegionsLoop dom ok hok seedOk todo visited regions) ∧
        (∀ p ∈ todo, seedOk p = true →
          ∃ R ∈ scanRegionsLoop dom ok hok seedOk todo visited regions, p ∈ R)) := by
  intro todo
  induction todo with
  | nil =>
    intro visited regions hso hA hB hC
    rw [scanRegionsLoop]
    exact ⟨hA, hC, fun R hR => hR, fun p hp => by simp at hp⟩
  | cons p rest ih =>
    intro visited regions hso hA hB hC
    rw [scanRegionsLoop]
    by_cases hcond : p ∉ visited ∧ seedOk p = true
    · rw [if_pos hcond]
      have hokp : ok p = true := hso p (List.mem_cons_self p rest) hcond.2
      have hchar := floodLoop_correct dom ok hok p hokp
      have hpcells : p ∈ floodLoop dom ok hok [p] ∅ [] :=
        (hchar p).mpr ⟨hokp, Relation.ReflTransGen.refl⟩
      have hlen : 0 < (floodLoop dom ok hok [p] ∅ []).length :=
        List.length_pos.mpr (fun h => by rw [h] at hpcells; simp at hpcells)
      simp only []
      rw [if_pos hlen]
      have hA' : ∀ R ∈ regions ++ [floodLoop dom ok hok [p] ∅ []], ∃ s, ok s = true ∧
          ∀ q, q ∈ R ↔ (ok q = true ∧ cellReach ok s q) := by
        intro R hR
        rcases List.mem_append.mp hR with h | h
        · exact hA R h
        · rcases List.mem_singleton.mp h with rfl
          exact ⟨p, hokp, hchar⟩
      have hB' : ∀ q, q ∈ visited ∪ (floodLoop dom ok hok [p] ∅ []).toFinset ↔
          ∃ R ∈ regions ++ [floodLoop dom ok hok [p] ∅ []], q ∈ R := by
        intro q
        rw [Finset.mem_union, List.mem_toFinset, hB q]
        constructor
        · rintro (⟨R, hR, hq⟩ | hq)
          · exact ⟨R, List.mem_append_left _ hR, hq⟩
          · exact ⟨_, List.mem_append_right _ (List.mem_singleton_self _), hq⟩
        · rintro ⟨R, hR, hq⟩
          rcases List.mem_append.mp hR with h | h
          · exact Or.inl ⟨R, h, hq⟩
          · rcases List.mem_singleton.mp h with rfl
            exact Or.inr hq
      have hC' : List.Pairwise (fun R1 R2 => ∀ q, q ∈ R1 → q ∉ R2)
          (regions ++ [floodLoop dom ok hok [p] ∅ []]) := by
        rw [List.pairwise_append]
        refine ⟨hC, List.pairwise_singleton _ _, ?_⟩
        intro R hR R' hR' q hqR hqR'
        rcases List.mem_singleton.mp hR' with rfl
        obtain ⟨sR, hsR, hcharR⟩ := hA R hR
        obtain ⟨hokq, hreachpq⟩ := (hchar q).mp hqR'
        obtain ⟨_, hreachsq⟩ := (hcharR q).mp hqR
        have hreach_sp : cellReach ok sR p :=
          cellReach_trans ok hreachsq (cellReach_symm ok hreachpq)
        have hpR : p ∈ R := (hcharR p).mpr ⟨hokp, hreach_sp⟩
        exact hcond.1 ((hB p).mpr ⟨R, hR, hpR⟩)
      have hres := ih (visited ∪ (floodLoop dom ok hok [p] ∅ []).toFinset)
        (regions ++ [floodLoop dom ok hok [p] ∅ []])
        (fun q hq hsq => hso q (List.mem_cons_of_mem p hq) hsq) hA' hB' hC'
      refine ⟨hres.1, hres.2.1, ?_, ?_⟩
      · intro R hR
        exact hres.2.2.1 R (List.mem_append_left _ hR)
      · intro q hq hsq
        rcases List.mem_cons.mp hq with rfl | hq
        · exact ⟨floodLoop dom ok hok [q] ∅ [],
            hres.2.2.1 _ (List.mem_append_right _ (List.mem_singleton_self _)), hpcells⟩
        · exact hres.2.2.2 q hq hsq
    · rw [if_neg hcond]
      have hres := ih visited regions
        (fun q hq hsq => hso q (List.mem_cons_of_mem p hq) hsq) hA hB hC
      refine ⟨hres.1, hres.2.1, hres.2.2.1, ?_⟩
      intro q hq hsq
      rcases List.mem_cons.mp hq with rfl | hq
      · have hqvis : q ∈ visited := by
          by_contra hnv
          exact hcond ⟨hnv, hsq⟩
        obtain ⟨R, hR, hqR⟩ := (hB q).mp hqvis
        exact ⟨R, hres.2.2.1 R hR, hqR⟩
      · exact hres.2.2.2 q hq hsq

theorem mem_editScanPositions (g : PixelGrid) (p : Int × Int) :
    p ∈ editScanPositions g ↔
      0 ≤ p.1 ∧ p.1 < (gridCols g : Int) ∧ 0 ≤ p.2 ∧ p.2 < (gridRows g : Int) := by
  obtain ⟨a, b⟩ := p
  constructor
  · intro h
    obtain ⟨y, hy, hmem⟩ := List.mem_flatMap.mp h
    obtain ⟨x, hx, heq⟩ := List.mem_map.mp hmem
    rw [List.mem_range] at hy hx
    simp only [Prod.mk.injEq] at heq
    obtain ⟨rfl, rfl⟩ := heq
    refine ⟨by omega, by omega, by omega, by omega⟩
  · rintro ⟨h1, h2, h3, h4⟩
    refine List.mem_flatMap.mpr ⟨b.toNat, List.mem_range.mpr (by omega), ?_⟩
    refine List.mem_map.mpr ⟨a.toNat, List.mem_range.mpr (by omega), ?_⟩
    simp only [Prod.mk.injEq]
    exact ⟨by omega, by omega⟩

theorem mem_focusScanPositions (g : PixelGrid) (p : Int × Int) :
    p ∈ focusScanPositions g ↔
      0 ≤ p.1 ∧ p.1 < (gridRows g : Int) ∧ 0 ≤ p.2 ∧ p.2 < (gridCols g : Int) := by
  obtain ⟨a, b⟩ := p
  constructor
  · intro h
    obtain ⟨r, hr, hmem⟩ := List.mem_flatMap.mp h
    obtain ⟨c, hc, heq⟩ := List.mem_map.mp hmem
    rw [List.mem_range] at hr hc
    simp only [Prod.mk.injEq] at heq
    obtain ⟨rfl, rfl⟩ := heq
    refine ⟨by omega, by omega, by omega, by omega⟩
  · rintro ⟨h1, h2, h3, h4⟩
    refine List.mem_flatMap.mpr ⟨a.toNat, List.mem_range.mpr (by omega), ?_⟩
    refine List.mem_map.mpr ⟨b.toNat, List.mem_range.mpr (by omega), ?_⟩
    simp only [Prod.mk.injEq]
    exact ⟨by omega, by omega⟩

/-- C5: with no marked cells, `findUnmarkedRegions` partitions exactly the
valid cells (current color key, not external, in bounds): every produced
region holds only valid cells, a cell is valid iff it lies in some produced
region, and distinct produced regions never share a cell. -/
theorem region_partition (g : PixelGrid) (currentColorKey : String) :
    (∀ R ∈ findUnmarkedRegions g currentColorKey ∅, ∀ p ∈ R,
      editCellOk g currentColorKey p = true) ∧
    (∀ p, editCellOk g currentColorKey p = true ↔
      ∃ R ∈ findUnmarkedRegions g currentColorKey ∅, p ∈ R) ∧
    List.Pairwise (fun R1 R2 => ∀ p, p ∈ R1 → p ∉ R2)
      (findUnmarkedRegions g currentColorKey ∅) := by
  have hseed : ∀ p, p ∈ editScanPositions g →
      (decide ((cellAt g p.2.toNat p.1.toNat).key = currentColorKey ∧
        (cellAt g p.2.toNat p.1.toNat).isExternal = false ∧
        p ∉ (∅ : Finset (Int × Int)))) = true →
      editCellOk g currentColorKey p = true := by
    intro p hp hs
    rw [decide_eq_true_eq] at hs
    rw [mem_editScanPositions] at hp
    simp only [editCellOk, decide_eq_true_eq]
    exact ⟨hp.1, hp.2.1, hp.2.2.1, hp.2.2.2, hs.1, hs.2.1⟩
  have hmaster := scanRegionsLoop_spec (boundsBox (gridCols g) (gridRows g))
    (editCellOk g currentColorKey) (editCellOk_mem_box g currentColorKey)
    (fun p => decide ((cellAt g p.2.toNat p.1.toNat).key = currentColorKey ∧
      (cellAt g p.2.toNat p.1.toNat).isExternal = false ∧
      p ∉ (∅ : Finset (Int × Int))))
    (editScanPositions g) ∅ [] hseed
    (by intro R hR; simp at hR)
    (by intro p; simp)
    (List.Pairwise.nil)
  have hchar : ∀ R ∈ findUnmarkedRegions g currentColorKey ∅, ∀ p ∈ R,
      editCellOk g currentColorKey p = true := by
    intro R hR p hp
    obtain ⟨s, _, hc⟩ := hmaster.1 R hR
    exact ((hc p).mp hp).1
  refine ⟨hchar, ?_, hmaster.2.1⟩
  intro p
  constructor
  · intro hok
    have hbounds := editCellOk_mem_box g currentColorKey p hok
    simp only [editCellOk, decide_eq_true_eq] at hok
    apply hmaster.2.2.2 p
    · rw [mem_editScanPositions]
      exact ⟨hok.1, hok.2.1, hok.2.2.1, hok.2.2.2.1⟩
    · rw [decide_eq_true_eq]
      exact ⟨hok.2.2.2.2.1, hok.2.2.2.2.2, Finset.not_mem_empty p⟩
  · rintro ⟨R, hR, hp⟩
    exact hchar R hR p hp

/-! ### Evaluation bridges: the well-founded loops as their fuel mirrors -/

theorem findUnmarkedRegions_eq_fuel (g : PixelGrid) (key : String)
    (marked : Finset (Int × Int)) (n : Nat)
    (hn : 1 + 4 * (boundsBox (gridCols g) (gridRows g)).card ≤ n) :
    findUnmarkedRegions g key marked =
      scanRegionsLoopFuel n (editCellOk g key)
        (fun p => decide ((cellAt g p.2.toNat p.1.toNat).key = key ∧
          (cellAt g p.2.toNat p.1.toNat).isExternal = false ∧ p ∉ marked))
        (editScanPositions g) ∅ [] := by
  unfold findUnmarkedRegions
  exact (scanRegionsLoopFuel_eq (boundsBox (gridCols g) (gridRows g))
    (editCellOk g key) (editCellOk_mem_box g key) _ n hn _ _ _).symm

theorem getAllConnectedRegions_eq_fuel (g : PixelGrid) (color : String) (n : Nat)
    (hn : 1 + 4 * (boundsBox (gridRows g) (gridCols g)).card ≤ n) :
    getAllConnectedRegions g color =
      scanRegionsLoopFuel n (focusCellOk g color) (focusCellOk g color)
        (focusScanPositions g) ∅ [] := by
  unfold getAllConnectedRegions
  exact (scanRegionsLoopFuel_eq (boundsBox (gridRows g) (gridCols g))
    (focusCellOk g color) (focusCellOk_mem_box g color) _ n hn _ _ _).symm

theorem getConnectedRegionRC_eq_fuel (g : PixelGrid) (row col : Int) (color : String)
    (n : Nat) (hn : 1 + 4 * (boundsBox (gridRows g) (gridCols g)).card ≤ n) :
    getConnectedRegionRC g row col color =
      floodLoopFuel (focusCellOk g color) n [(row, col)] ∅ [] := by
  unfold getConnectedRegionRC
  refine (floodLoopFuel_eq (boundsBox (gridRows g) (gridCols g))
    (focusCellOk g color) (focusCellOk_mem_box g color) n _ _ _ ?_).symm
  simp only [List.length_cons, List.length_nil, Finset.sdiff_empty]
  omega

/-! ### First-extremum characterizations of the recommendation folds -/

/-- The `reduce` fold keeping a strictly larger value selects the earliest
maximum of `acc :: rest`: the list splits around the result, everything
before it is strictly smaller, and nothing in the list is larger. -/
theorem foldl_argmax_first {α : Type _} (f : α → Nat) :
    ∀ (rest : List α) (acc : α),
      ∃ l1 l2, acc :: rest =
        l1 ++ (rest.foldl (fun best r => if f r > f best then r else best) acc) :: l2 ∧
        (∀ r ∈ l1, f r < f (rest.foldl (fun best r => if f r > f best then r else best) acc)) ∧
        (∀ r ∈ acc :: rest,
          f r ≤ f (rest.foldl (fun best r => if f r > f best then r else best) acc)) := by
  intro rest
  induction rest with
  | nil =>
    intro acc
    exact ⟨[], [], rfl, by simp, by simp⟩
  | cons b rest ih =>
    intro acc
    rw [List.foldl_cons]
    by_cases hb : f b > f acc
    · rw [if_pos hb]
      obtain ⟨l1, l2, hsplit, hpre, hmax⟩ := ih b
      refine ⟨acc :: l1, l2, by rw [List.cons_append, hsplit], ?_, ?_⟩
      · intro r hr
        rcases List.mem_cons.mp hr with rfl | hr
        · exact lt_of_lt_of_le hb (hmax b (List.mem_cons_self b rest))
        · exact hpre r hr
      · intro r hr
        rcases List.mem_cons.mp hr with rfl | hr
        · exact le_of_lt (lt_of_lt_of_le hb (hmax b (List.mem_cons_self b rest)))
        · exact hmax r hr
    · rw [if_neg hb]
      push_neg at hb
      obtain ⟨l1, l2, hsplit, hpre, hmax⟩ := ih acc
      cases l1 with
      | nil =>
        have hacc : rest.foldl (fun best r => if f r > f best then r else best) acc = acc := by
          have := congrArg (fun l => l.head?) hsplit
          simpa using this.symm
        refine ⟨[], b :: rest, by rw [hacc]; rfl, by simp, ?_⟩
        intro r hr
        rcases List.mem_cons.mp hr with rfl | hr
        · rw [hacc]
        · rcases List.mem_cons.mp hr with rfl | hr
          · rw [hacc]; exact hb
          · exact hmax r (List.mem_cons_of_mem acc hr)
      | cons a t =>
        have ha : a = acc := by
          have := congrArg (fun l => l.head?) hsplit
          simpa using this.symm
        have hrest : rest =
            t ++ (rest.foldl (fun best r => if f r > f best then r else best) acc) :: l2 := by
          have := congrArg List.tail hsplit
          simpa using this
        have haccl1 : acc ∈ a :: t := by
          rw [ha]; exact List.mem_cons_self acc t
        refine ⟨acc :: b :: t, l2, ?_, ?_, ?_⟩
        · conv_lhs => rw [hrest]
          rfl
        · intro r hr
          rcases List.mem_cons.mp hr with rfl | hr
          · exact hpre r haccl1
          · rcases List.mem_cons.mp hr with rfl | hr
            · exact lt_of_le_of_lt hb (hpre acc haccl1)
            · exact hpre r (List.mem_cons_of_mem a hr)
        · intro r hr
          rcases List.mem_cons.mp hr with rfl | hr
          · exact hmax r (List.mem_cons_self r rest)
          · rcases List.mem_cons.mp hr with rfl | hr
            · exact le_trans hb (hmax acc (List.mem_cons_self acc rest))
            · exact hmax r (List.mem_cons_of_mem acc hr)

/-- The `reduce` fold keeping a strictly smaller value selects the earliest
minimum of `acc :: rest`. -/
theorem foldl_argmin_first {α : Type _} (f : α → Int) :
    ∀ (rest : List α) (acc : α),
      ∃ l1 l2, acc :: rest =
        l1 ++ (rest.foldl (fun best r => if f r < f best then r else best) acc) :: l2 ∧
        (∀ r ∈ l1, f (rest.foldl (fun best r => if f r < f best then r else best) acc) < f r) ∧
        (∀ r ∈ acc :: rest,
          f (rest.foldl (fun best r => if f r < f best then r else best) acc) ≤ f r) := by
  intro rest
  induction rest with
  | nil =>
    intro acc
    exact ⟨[], [], rfl, by simp, by simp⟩
  | cons b rest ih =>
    intro acc
    rw [List.foldl_cons]
    by_cases hb : f b < f acc
    · rw [if_pos hb]
      obtain ⟨l1, l2, hsplit, hpre, hmin⟩ := ih b
      refine ⟨acc :: l1, l2, by rw [List.cons_append, hsplit], ?_, ?_⟩
      · intro r hr
        rcases List.mem_cons.mp hr with rfl | hr
        · exact lt_of_le_of_lt (hmin b (List.mem_cons_self b rest)) hb
        · exact hpre r hr
      · intro r hr
        rcases List.mem_cons.mp hr with rfl | hr
        · exact le_of_lt (lt_of_le_of_lt (hmin b (List.mem_cons_self b rest)) hb)
        · exact hmin r hr
    · rw [if_neg hb]
      push_neg at hb
      obtain ⟨l1, l2, hsplit, hpre, hmin⟩ := ih acc
      cases l1 with
      | nil =>
        have hacc : rest.foldl (fun best r => if f r < f best then r else best) acc = acc := by
          have := congrArg (fun l => l.head?) hsplit
          simpa using this.symm
        refine ⟨[], b :: rest, by rw [hacc]; rfl, by simp, ?_⟩
        intro r hr
        rcases List.mem_cons.mp hr with rfl | hr
        · rw [hacc]
        · rcases List.mem_cons.mp hr with rfl | hr
          · rw [hacc]; exact hb
          · exact hmin r (List.mem_cons_of_mem acc hr)
      | cons a t =>
        have ha : a = acc := by
          have := congrArg (fun l => l.head?) hsplit
          simpa using this.symm
        have hrest : rest =
            t ++ (rest.foldl (fun best r => if f r < f best then r else best) acc) :: l2 := by
          have := congrArg List.tail hsplit
          simpa using this
        have haccl1 : acc ∈ a :: t := by
          rw [ha]; exact List.mem_cons_self acc t
        refine ⟨acc :: b :: t, l2, ?_, ?_, ?_⟩
        · conv_lhs => rw [hrest]
          rfl
        · intro r hr
          rcases List.mem_cons.mp hr with rfl | hr
          · exact hpre r haccl1
          · rcases List.mem_cons.mp hr with rfl | hr
            · exact lt_of_lt_of_le (hpre acc haccl1) hb
            · exact hpre r (List.mem_cons_of_mem a hr)
        · intro r hr
          rcases List.mem_cons.mp hr with rfl | hr
          · exact hmin r (List.mem_cons_self r rest)
          · rcases List.mem_cons.mp hr with rfl | hr
            · exact le_trans (hmin acc (List.mem_cons_self acc rest)) hb
            · exact hmin r (List.mem_cons_of_mem acc hr)

/-- The head of a stable insertion sort by a value function is the earliest
minimum of the input list. -/
theorem insertionSort_headD_min {α : Type _} (f : α → Int) (d : α) :
    ∀ (l : List α) (a : α),
      ∃ l1 l2, a :: l =
        l1 ++ (((a :: l).insertionSort (fun x y => f x ≤ f y)).headD d) :: l2 ∧
        (∀ r ∈ l1, f (((a :: l).insertionSort (fun x y => f x ≤ f y)).headD d) < f r) ∧
        (∀ r ∈ a :: l, f (((a :: l).insertionSort (fun x y => f x ≤ f y)).headD d) ≤ f r) := by
  intro l
  induction l with
  | nil =>
    intro a
    exact ⟨[], [], rfl, by simp, by simp⟩
  | cons b l ih =>
    intro a
    obtain ⟨l1, l2, hsplit, hpre, hmin⟩ := ih b
    have hne : (b :: l).insertionSort (fun x y => f x ≤ f y) ≠ [] := by
      intro h
      have := List.length_insertionSort (fun x y => f x ≤ f y) (b :: l)
      rw [h] at this
      simp at this
    obtain ⟨m, tail, hsorted⟩ := List.exists_cons_of_ne_nil hne
    have hm : ((b :: l).insertionSort (fun x y => f x ≤ f y)).headD d = m := by
      rw [hsorted]; rfl
    have hstep : (a :: b :: l).insertionSort (fun x y => f x ≤ f y) =
        List.orderedInsert (fun x y => f x ≤ f y) a (m :: tail) := by
      rw [List.insertionSort, hsorted]
    rw [hm] at hsplit hpre hmin
    by_cases hle : f a ≤ f m
    · have hhead : ((a :: b :: l).insertionSort (fun x y => f x ≤ f y)).headD d = a := by
        rw [hstep, List.orderedInsert, if_pos hle]
        rfl
      rw [hhead]
      refine ⟨[], b :: l, rfl, by simp, ?_⟩
      intro r hr
      rcases List.mem_cons.mp hr with rfl | hr
      · exact le_refl _
      · exact le_trans hle (hmin r hr)
    · push_neg at hle
      have hhead : ((a :: b :: l).insertionSort (fun x y => f x ≤ f y)).headD d = m := by
        rw [hstep, List.orderedInsert, if_neg (by omega)]
        rfl
      rw [hhead]
      refine ⟨a :: l1, l2, by rw [List.cons_append, ← hsplit], ?_, ?_⟩
      · intro r hr
        rcases List.mem_cons.mp hr with rfl | hr
        · exact hle
        · exact hpre r hr
      · intro r hr
        rcases List.mem_cons.mp hr with rfl | hr
        · exact le_of_lt hle
        · exact hmin r hr

/-! ### Concrete region computations -/

theorem editRegions_cx : findUnmarkedRegions gridEdgeCx "A" ∅ =
    [[((0 : Int), (0 : Int))], [((0 : Int), (2 : Int)), ((1 : Int), (2 : Int))]] := by
  rw [findUnmarkedRegions_eq_fuel gridEdgeCx "A" ∅ 64 (by decide)]
  decide

theorem editRegions_scenario : findUnmarkedRegions gridEdgeScenario "A" ∅ =
    [[((1 : Int), (0 : Int)), ((2 : Int), (0 : Int))],
      [((2 : Int), (2 : Int)), ((3 : Int), (2 : Int))]] := by
  rw [findUnmarkedRegions_eq_fuel gridEdgeScenario "A" ∅ 128 (by decide)]
  decide

theorem focusRegions_scenario : getAllConnectedRegions gridEdgeScenario "A" =
    [[((0 : Int), (1 : Int)), ((0 : Int), (2 : Int))],
      [((2 : Int), (2 : Int)), ((2 : Int), (3 : Int))]] := by
  rw [getAllConnectedRegions_eq_fuel gridEdgeScenario "A" 128 (by decide)]
  decide

/-- C1 (counterexample): in the edit-mode hook the edge-first policy is not
"first boundary-touching region in discovery order". On `gridEdgeCx` the
regions in discovery order are `[(0,0)]` then `[(0,2),(1,2)]`; the first one
touches the boundary, so the claimed policy returns it, yet
`recommendNextRegion` returns the second region (it has more boundary
cells). -/
theorem edge_first_counterexample :
    findUnmarkedRegions gridEdgeCx "A" ∅ =
      [[((0 : Int), (0 : Int))], [((0 : Int), (2 : Int)), ((1 : Int), (2 : Int))]] ∧
    editTouchesEdge gridEdgeCx [((0 : Int), (0 : Int))] = true ∧
    recommendNextRegion gridEdgeCx "A" ∅ none RecommendMode.edgeFirst =
      some [((0 : Int), (2 : Int)), ((1 : Int), (2 : Int))] ∧
    ([((0 : Int), (2 : Int)), ((1 : Int), (2 : Int))] : List (Int × Int)) ≠
      [((0 : Int), (0 : Int))] := by
  refine ⟨editRegions_cx, by decide, ?_, by decide⟩
  unfold recommendNextRegion
  rw [editRegions_cx]
  decide

/-- C1 (amended): on the focus page `calculateRecommendedRegion` implements
edge-first exactly as claimed — filter the incomplete regions to those
touching the outer boundary and take the first, falling back to the first
incomplete region — but the edit-mode hook's `recommendNextRegion` instead
returns the earliest region with the maximum number of boundary cells. On
the 5×5 scenario (two equal-size regions, one touching row 0, one interior)
both implementations recommend the boundary-touching region. -/
theorem edge_first_policy (g : PixelGrid) (color key : String)
    (completed marked : Finset (Int × Int)) (sel : Option (Int × Int))
    (lm : Option (Int × Int)) (r0 : List (Int × Int)) (rest : List (List (Int × Int))) :
    (color ≠ "" → incompleteRegions g color completed = r0 :: rest →
      ∃ res, calculateRecommendedRegion g color completed sel RecommendMode.edgeFirst =
          some res ∧
        ((∃ l1 l2, r0 :: rest = l1 ++ res :: l2 ∧
            (∀ R ∈ l1, focusTouchesEdge g R = false) ∧ focusTouchesEdge g res = true) ∨
          ((∀ R ∈ r0 :: rest, focusTouchesEdge g R = false) ∧ res = r0))) ∧
    (findUnmarkedRegions g key marked = r0 :: rest →
      ∃ res, recommendNextRegion g key marked lm RecommendMode.edgeFirst = some res ∧
        ∃ l1 l2, r0 :: rest = l1 ++ res :: l2 ∧
          (∀ R ∈ l1, editEdgeCount g R < editEdgeCount g res) ∧
          (∀ R ∈ r0 :: rest, editEdgeCount g R ≤ editEdgeCount g res)) ∧
    calculateRecommendedRegion gridEdgeScenario "A" ∅ none RecommendMode.edgeFirst =
      some [((0 : Int), (1 : Int)), ((0 : Int), (2 : Int))] ∧
    recommendNextRegion gridEdgeScenario "A" ∅ none RecommendMode.edgeFirst =
      some [((1 : Int), (0 : Int)), ((2 : Int), (0 : Int))] ∧
    focusTouchesEdge gridEdgeScenario [((0 : Int), (1 : Int)), ((0 : Int), (2 : Int))] = true ∧
    editTouchesEdge gridEdgeScenario [((1 : Int), (0 : Int)), ((2 : Int), (0 : Int))] = true := by
  refine ⟨?_, ?_, ?_, ?_, by decide, by decide⟩
  · intro hcolor hinc
    unfold calculateRecommendedRegion
    rw [if_neg hcolor, hinc]
    dsimp only
    cases hfil : (r0 :: rest).filter (focusTouchesEdge g) with
    | nil =>
      refine ⟨r0, rfl, Or.inr ⟨?_, rfl⟩⟩
      intro R hR
      have := List.filter_eq_nil_iff.mp hfil R hR
      simpa using this
    | cons e0 es =>
      obtain ⟨l1, l2, hsplit, hpre, he0, _⟩ := List.filter_eq_cons_iff.mp hfil
      refine ⟨e0, rfl, Or.inl ⟨l1, l2, hsplit, ?_, he0⟩⟩
      intro R hR
      have := hpre R hR
      simpa using this
  · intro hreg
    unfold recommendNextRegion
    rw [hreg]
    refine ⟨_, rfl, ?_⟩
    obtain ⟨l1, l2, hsplit, hpre, hmax⟩ := foldl_argmax_first (editEdgeCount g) rest r0
    exact ⟨l1, l2, hsplit, hpre, hmax⟩
  · unfold calculateRecommendedRegion incompleteRegions
    rw [focusRegions_scenario]
    decide
  · unfold recommendNextRegion
    rw [editRegions_scenario]
    decide

/-- Witness for `edge_first_policy`: the edit-mode conjunct at the concrete
grid `gridEdgeCx`, whose regions are `[(0,0)]` and `[(0,2),(1,2)]`. -/
theorem edge_first_policy_witness :
    findUnmarkedRegions gridEdgeCx "A" ∅ =
      [[((0 : Int), (0 : Int))], [((0 : Int), (2 : Int)), ((1 : Int), (2 : Int))]] ∧
    (∃ res, recommendNextRegion gridEdgeCx "A" ∅ none RecommendMode.edgeFirst = some res ∧
      ∃ l1 l2,
        [[((0 : Int), (0 : Int))], [((0 : Int), (2 : Int)), ((1 : Int), (2 : Int))]] =
          l1 ++ res :: l2 ∧
        (∀ R ∈ l1, editEdgeCount gridEdgeCx R < editEdgeCount gridEdgeCx res) ∧
        (∀ R ∈ [[((0 : Int), (0 : Int))], [((0 : Int), (2 : Int)), ((1 : Int), (2 : Int))]],
          editEdgeCount gridEdgeCx R ≤ editEdgeCount gridEdgeCx res)) :=
  ⟨editRegions_cx,
    (edge_first_policy gridEdgeCx "A" "A" ∅ ∅ none none
      [((0 : Int), (0 : Int))]
      [[((0 : Int), (2 : Int)), ((1 : Int), (2 : Int))]]).2.1 editRegions_cx⟩

theorem editRegions_nearCx : findUnmarkedRegions gridNearCx "A" ∅ =
    [[((0 : Int), (0 : Int))], [((1 : Int), (1 : Int))]] := by
  rw [findUnmarkedRegions_eq_fuel gridNearCx "A" ∅ 64 (by decide)]
  decide

/-- C8 (counterexample): in the edit-mode hook, when no cell has been
clicked yet (`lastMarkedPosition` is `null`), the nearest policy does not
fall back to the grid center: on `gridNearCx` it returns the first region
`[(0,0)]` although the region `[(1,1)]` sits exactly on the 3×3 grid's
center `(1,1)` and is strictly nearer to it. -/
theorem nearest_counterexample :
    findUnmarkedRegions gridNearCx "A" ∅ =
      [[((0 : Int), (0 : Int))], [((1 : Int), (1 : Int))]] ∧
    recommendNextRegion gridNearCx "A" ∅ none RecommendMode.nearest =
      some [((0 : Int), (0 : Int))] ∧
    ((gridCols gridNearCx / 2 : Nat) : Int) = 1 ∧
    ((gridRows gridNearCx / 2 : Nat) : Int) = 1 ∧
    minDistSq [((1 : Int), (1 : Int))] ((1 : Int), (1 : Int)) <
      minDistSq [((0 : Int), (0 : Int))] ((1 : Int), (1 : Int)) ∧
    ([((0 : Int), (0 : Int))] : List (Int × Int)) ≠ [((1 : Int), (1 : Int))] := by
  refine ⟨editRegions_nearCx, ?_, by decide, by decide, by decide, by decide⟩
  unfold recommendNextRegion
  rw [editRegions_nearCx]

/-- C8 (amended): on the focus page the nearest policy is exactly as
claimed — reference point is the selected cell, or the grid center
`(rows/2, cols/2)` when none is selected, and the recommendation is the
earliest incomplete region whose minimum squared distance of a cell to the
reference point is smallest. In the edit-mode hook this holds only when a
last-marked position exists; with none the hook returns the first region in
discovery order without consulting the grid center. -/
theorem nearest_policy (g : PixelGrid) (color key : String)
    (completed marked : Finset (Int × Int)) (sel : Option (Int × Int))
    (ref : Int × Int) (r0 : List (Int × Int)) (rest : List (List (Int × Int))) :
    (color ≠ "" → incompleteRegions g color completed = r0 :: rest →
      ∃ res, calculateRecommendedRegion g color completed sel RecommendMode.nearest =
          some res ∧
        ∃ l1 l2, r0 :: rest = l1 ++ res :: l2 ∧
          (∀ R ∈ l1,
            minDistSq res (sel.getD (((gridRows g / 2 : Nat) : Int), ((gridCols g / 2 : Nat) : Int))) <
              minDistSq R (sel.getD (((gridRows g / 2 : Nat) : Int), ((gridCols g / 2 : Nat) : Int)))) ∧
          (∀ R ∈ r0 :: rest,
            minDistSq res (sel.getD (((gridRows g / 2 : Nat) : Int), ((gridCols g / 2 : Nat) : Int))) ≤
              minDistSq R (sel.getD (((gridRows g / 2 : Nat) : Int), ((gridCols g / 2 : Nat) : Int))))) ∧
    (findUnmarkedRegions g key marked = r0 :: rest →
      ∃ res, recommendNextRegion g key marked (some ref) RecommendMode.nearest = some res ∧
        ∃ l1 l2, r0 :: rest = l1 ++ res :: l2 ∧
          (∀ R ∈ l1, minDistSq res ref < minDistSq R ref) ∧
          (∀ R ∈ r0 :: rest, minDistSq res ref ≤ minDistSq R ref)) ∧
    (findUnmarkedRegions g key marked = r0 :: rest →
      recommendNextRegion g key marked none RecommendMode.nearest = some r0) := by
  refine ⟨?_, ?_, ?_⟩
  · intro hcolor hinc
    unfold calculateRecommendedRegion
    rw [if_neg hcolor, hinc]
    dsimp only
    unfold sortRegionsByDistance
    refine ⟨_, rfl, ?_⟩
    exact insertionSort_headD_min
      (fun R => minDistSq R (sel.getD (((gridRows g / 2 : Nat) : Int), ((gridCols g / 2 : Nat) : Int))))
      [] rest r0
  · intro hreg
    unfold recommendNextRegion
    rw [hreg]
    dsimp only
    refine ⟨_, rfl, ?_⟩
    exact foldl_argmin_first (fun R => minDistSq R ref) rest r0
  · intro hreg
    unfold recommendNextRegion
    rw [hreg]

/-- Witness for `nearest_policy`: the edit-mode conjunct at `gridNearCx`
with last-marked position `(1,1)`. -/
theorem nearest_policy_witness :
    findUnmarkedRegions gridNearCx "A" ∅ =
      [[((0 : Int), (0 : Int))], [((1 : Int), (1 : Int))]] ∧
    (∃ res, recommendNextRegion gridNearCx "A" ∅ (some ((1 : Int), (1 : Int)))
        RecommendMode.nearest = some res ∧
      ∃ l1 l2, [[((0 : Int), (0 : Int))], [((1 : Int), (1 : Int))]] = l1 ++ res :: l2 ∧
        (∀ R ∈ l1, minDistSq res ((1 : Int), (1 : Int)) < minDistSq R ((1 : Int), (1 : Int))) ∧
        (∀ R ∈ [[((0 : Int), (0 : Int))], [((1 : Int), (1 : Int))]],
          minDistSq res ((1 : Int), (1 : Int)) ≤ minDistSq R ((1 : Int), (1 : Int)))) :=
  ⟨editRegions_nearCx,
    (nearest_policy gridNearCx "A" "A" ∅ ∅ none ((1 : Int), (1 : Int))
      [((0 : Int), (0 : Int))] [[((1 : Int), (1 : Int))]]).2.1 editRegions_nearCx⟩

theorem focusRegion_unit : getConnectedRegionRC [[mkPx "A"]] 0 0 "A" =
    [((0 : Int), (0 : Int))] := by
  rw [getConnectedRegionRC_eq_fuel [[mkPx "A"]] 0 0 "A" 8 (by decide)]
  decide

/-- C10: clicking a cell carrying the active color toggles its whole
4-connected region in the completion set. The region is exactly the set of
valid cells reachable from the clicked cell; if it is entirely completed the
click removes all of its cells from the set, otherwise it adds all of them;
and on a 1×1 grid a click on a completed cell strictly shrinks the set, so
completion is not monotone under clicks. -/
theorem click_toggles_region (g : PixelGrid) (currentColor : String)
    (completedCells : Finset (Int × Int)) (row col : Int)
    (hvalid : focusCellOk g currentColor (row, col) = true) :
    (∀ p, p ∈ getConnectedRegionRC g row col currentColor ↔
      (focusCellOk g currentColor p = true ∧
        cellReach (focusCellOk g currentColor) (row, col) p)) ∧
    (isRegionCompleted (getConnectedRegionRC g row col currentColor) completedCells = true →
      handleCellClickFocus g currentColor completedCells row col =
        completedCells \ (getConnectedRegionRC g row col currentColor).toFinset) ∧
    (isRegionCompleted (getConnectedRegionRC g row col currentColor) completedCells = false →
      handleCellClickFocus g currentColor completedCells row col =
        completedCells ∪ (getConnectedRegionRC g row col currentColor).toFinset) ∧
    (∃ cc : Finset (Int × Int), handleCellClickFocus [[mkPx "A"]] "A" cc 0 0 ⊂ cc) := by
  have hchar : ∀ p, p ∈ getConnectedRegionRC g row col currentColor ↔
      (focusCellOk g currentColor p = true ∧
        cellReach (focusCellOk g currentColor) (row, col) p) :=
    floodLoop_correct (boundsBox (gridRows g) (gridCols g)) (focusCellOk g currentColor)
      (focusCellOk_mem_box g currentColor) (row, col) hvalid
  have hseed : (row, col) ∈ getConnectedRegionRC g row col currentColor :=
    (hchar (row, col)).mpr ⟨hvalid, Relation.ReflTransGen.refl⟩
  have hne : getConnectedRegionRC g row col currentColor ≠ [] := by
    intro h
    rw [h] at hseed
    simp at hseed
  obtain ⟨c, cs, hr⟩ := List.exists_cons_of_ne_nil hne
  have hcolor : (cellAt g row.toNat col.toNat).color = currentColor := by
    simp only [focusCellOk, decide_eq_true_eq] at hvalid
    exact hvalid.2.2.2.2.1
  refine ⟨hchar, ?_, ?_, ?_⟩
  · intro hcomp
    unfold handleCellClickFocus
    rw [if_pos hcolor, hr]
    rw [hr] at hcomp
    dsimp only
    rw [if_pos hcomp]
  · intro hcomp
    unfold handleCellClickFocus
    rw [if_pos hcolor, hr]
    rw [hr] at hcomp
    dsimp only
    rw [if_neg (by rw [hcomp]; exact Bool.false_ne_true)]
  · refine ⟨{((0 : Int), (0 : Int))}, ?_⟩
    unfold handleCellClickFocus
    rw [focusRegion_unit]
    decide

/-- Witness for `click_toggles_region`: the 1×1 grid with one `"A"` cell,
clicked at `(0,0)` with the cell already completed. -/
theorem click_toggles_region_witness :
    focusCellOk [[mkPx "A"]] "A" ((0 : Int), (0 : Int)) = true ∧
    (isRegionCompleted (getConnectedRegionRC [[mkPx "A"]] 0 0 "A")
        {((0 : Int), (0 : Int))} = true →
      handleCellClickFocus [[mkPx "A"]] "A" {((0 : Int), (0 : Int))} 0 0 =
        {((0 : Int), (0 : Int))} \ (getConnectedRegionRC [[mkPx "A"]] 0 0 "A").toFinset) :=
  ⟨by decide,
    (click_toggles_region [[mkPx "A"]] "A" {((0 : Int), (0 : Int))} 0 0 (by decide)).2.1⟩
